import Mathlib

/-!
# lambda-eval.c: the term graph and its single-step reducer

A shallow embedding of `src/lambda-eval.c`.

* A `struct expr*` is the address of a node; a `struct expr**` is the address of a
  binding cell.  Both are natural numbers, in two separate address spaces: every cell
  of the source is a `malloc(sizeof(struct expr*))` of its own, never the address of a
  field of a node.
* The heap gives the node stored at every node address and the pointer stored in every
  cell; `none` in a cell is the C `NULL`.  The pointer fields `fun`, `arg` and `body` of a
  node hold node addresses (what `makeApp` and `makeLam` are given in the source); only a
  cell and the result of `step` can be `NULL`.
* `step` recurses through `fun` and `arg` fields, so on a cyclic graph the C function
  need not return.  The embedding bounds the recursion depth by a fuel argument and
  answers `none` when the bound is reached.
* `expr2s` prints a term and recurses through `fun`, `arg`, `body` and the contents of
  filled cells, with no bound, so it need not return on a graph that is cyclic through a
  cell or a body.  The embedding keeps this recursion (under a fuel argument) and leaves
  out the text it prints; `eval` calls it before every `step`, as the source does.
-/

namespace LambdaEval

/-- The tags of `expr_tag`. -/
inductive expr_tag where
  | APP
  | LAM
  | PTR
  | BASE
  deriving DecidableEq, Repr

/-- The `struct base` of the source: a constant, represented by a string. -/
structure base where
  data : String
  deriving DecidableEq, Repr

def b0 : base := ⟨"zero"⟩
def b1 : base := ⟨"one"⟩
def unit : base := ⟨"()"⟩

/-- Address of a node (`struct expr*`, not `NULL`). -/
abbrev ExprPtr := Nat

/-- Address of a binding cell (`struct expr**`). -/
abbrev CellPtr := Nat

/-- The `struct expr` of the source: the tag together with the arm of the union that the
tag selects. -/
inductive expr where
  | APP (fn : ExprPtr) (arg : ExprPtr)
  | LAM (var : CellPtr) (body : ExprPtr)
  | PTR (p : CellPtr)
  | BASE (b : base)
  deriving DecidableEq, Repr

/-- The `tag` field of a node. -/
def expr.tag : expr → expr_tag
  | .APP _ _ => .APP
  | .LAM _ _ => .LAM
  | .PTR _ => .PTR
  | .BASE _ => .BASE

/-- The memory the evaluator works on. -/
structure Heap where
  node : ExprPtr → expr
  cell : CellPtr → Option ExprPtr

/-- The assignment `e->data.a.fun = f2` or `e->data.a.arg = arg2`, given the new contents
of the node. -/
def Heap.set_node (h : Heap) (e : ExprPtr) (v : expr) : Heap :=
  { h with node := Function.update h.node e v }

/-- The assignment `*(var) = arg`. -/
def Heap.set_cell (h : Heap) (var : CellPtr) (arg : ExprPtr) : Heap :=
  { h with cell := Function.update h.cell var (some arg) }

/-- The function `step_app_lam` of the source (not called by `step`, which inlines it):
write the argument into the binder's cell and return the body. -/
def step_app_lam (h : Heap) (var : CellPtr) (body : ExprPtr) (arg : ExprPtr) :
    Heap × ExprPtr :=
  (h.set_cell var arg, body)

/-- The function `step` of the source.  The first argument bounds the depth of the
recursion.  The result is `none` when that bound is reached, and otherwise the heap after
the call together with the returned pointer (`none` for `NULL`).  Each time the source
reads a field of `e` after a recursive call the node is read again from the current
heap; a read of the `a` arm of a node whose tag is not `APP` has no result. -/
def step : Nat → Heap → ExprPtr → Option (Heap × Option ExprPtr)
  | 0, _, _ => none
  | n + 1, h, e =>
    match h.node e with
    | .LAM _ _ => some (h, none)
    | .PTR p => some (h, h.cell p)
    | .BASE _ => some (h, none)
    | .APP f _ =>
      match step n h f with
      | none => none
      | some (h1, some f2) =>
        match h1.node e with
        | .APP _ a1 => some (h1.set_node e (.APP f2 a1), some e)
        | _ => none
      | some (h1, none) =>
        match h1.node e with
        | .APP _ a1 =>
          match step n h1 a1 with
          | none => none
          | some (h2, some arg2) =>
            match h2.node e with
            | .APP f3 _ => some (h2.set_node e (.APP f3 arg2), some e)
            | _ => none
          | some (h2, none) =>
            match h2.node e with
            | .APP f3 a3 =>
              match h2.node f3 with
              | .LAM var body => some (h2.set_cell var a3, some body)
              | _ => some (h2, none)
            | _ => none
        | _ => none

/-- The function `expr2s` of the source, reduced to its recursion: the calls to `printf`
and `indent`, and the argument `tabs` that only they use, are left out.  The first
argument bounds the depth of the recursion; the result is `none` when that bound is
reached and `some ()` when the call returns. -/
def expr2s : Nat → Heap → ExprPtr → Option Unit
  | 0, _, _ => none
  | n + 1, h, e =>
    match h.node e with
    | .LAM _ body => expr2s n h body
    | .APP f a =>
      match expr2s n h f with
      | none => none
      | some _ => expr2s n h a
    | .PTR p =>
      match h.cell p with
      | some t => expr2s n h t
      | none => some ()
    | .BASE _ => some ()

/-- The function `eval` of the source.  Every turn of the `while(1)` loop first prints
the current term with `expr2s` and then calls `step` on it.  `depth` is the recursion
bound handed to every call of `expr2s` and of `step`; the second argument bounds the
number of turns of the loop.  The result is `none` when one of the bounds is reached. -/
def eval (depth : Nat) : Nat → Heap → ExprPtr → Option (Heap × ExprPtr)
  | 0, _, _ => none
  | k + 1, h, e2 =>
    match expr2s depth h e2 with
    | none => none
    | some _ =>
      match step depth h e2 with
      | none => none
      | some (h1, some e3) => eval depth k h1 e3
      | some (h1, none) => some (h1, e2)

/-- Modelled from the spec: `is_value` of section 4.1, which the source does not define
(its `step` only says so in a comment: lambdas, constants and null ptrs are values).
True for an abstraction, a constant and a reference whose cell is empty; false for an
application and for a reference whose cell is filled. -/
def is_value (h : Heap) (t : ExprPtr) : Bool :=
  match h.node t with
  | .LAM _ _ => true
  | .BASE _ => true
  | .PTR p => (h.cell p).isNone
  | .APP _ _ => false

/-- `step` called on `e` in heap `h` returns `r` and leaves the heap `h1`. -/
def Returns (h : Heap) (e : ExprPtr) (h1 : Heap) (r : Option ExprPtr) : Prop :=
  ∃ n, step n h e = some (h1, r)

/-- `n` successive successful calls of `step`, each on the pointer the previous call
returned and in the heap the previous call left. -/
inductive Iter : Nat → Heap → ExprPtr → Heap → ExprPtr → Prop where
  | zero (h : Heap) (e : ExprPtr) : Iter 0 h e h e
  | succ {n : Nat} {h h1 h2 : Heap} {e e1 e2 : ExprPtr} :
      Returns h e h1 (some e1) → Iter n h1 e1 h2 e2 → Iter (n + 1) h e h2 e2

/-! ## Heaps of the test fixtures

Node addresses stand for the objects the fixtures allocate; every address the fixture
does not use holds the constant `b0`, and every cell starts empty (`*var = NULL`). -/

/-- The heap built by `test1`: `lam_id = makeIdFn()` at node 1 (cell 1, body 2),
`lam_const = makeConstFn()` at node 3 (cell 2, body 4), and
`app_id_const = makeApp(&lam_id, &lam_const)` at node 5. -/
def test1_heap : Heap where
  node := fun p =>
    match p with
    | 1 => .LAM 1 2
    | 2 => .PTR 1
    | 3 => .LAM 2 4
    | 4 => .BASE unit
    | 5 => .APP 1 3
    | _ => .BASE b0
  cell := fun _ => none

/-- A heap in which both slots of the application at node 1 can step: its function slot
(node 2) and its argument slot (node 3) are references to the filled cells 1 and 2, which
hold the abstraction at node 4 (cell 3, body 6) and the constant at node 5. -/
def both_step_heap : Heap where
  node := fun p =>
    match p with
    | 1 => .APP 2 3
    | 2 => .PTR 1
    | 3 => .PTR 2
    | 4 => .LAM 3 6
    | 5 => .BASE b1
    | 6 => .PTR 3
    | _ => .BASE b0
  cell := fun c =>
    match c with
    | 1 => some 4
    | 2 => some 5
    | _ => none

/-- The application of the identity at node 2 (cell 1, body 4) to the application at
node 3 of that same identity to the constant at node 5. -/
def shared_fun_heap : Heap where
  node := fun p =>
    match p with
    | 1 => .APP 2 3
    | 2 => .LAM 1 4
    | 3 => .APP 2 5
    | 4 => .PTR 1
    | 5 => .BASE b1
    | _ => .BASE b0
  cell := fun _ => none

/-- The application at node 1 of the abstraction at node 2 (cell 1, body 4) to the
reference at node 3, whose cell 2 holds the constant at node 5. -/
def arg_steps_heap : Heap where
  node := fun p =>
    match p with
    | 1 => .APP 2 3
    | 2 => .LAM 1 4
    | 3 => .PTR 2
    | 4 => .PTR 1
    | 5 => .BASE b1
    | _ => .BASE b0
  cell := fun c =>
    match c with
    | 2 => some 5
    | _ => none

/-- A chain of references: node 1 refers to cell 1, which holds node 2; node 2 refers to
cell 2, which holds the constant at node 3. -/
def chain_heap : Heap where
  node := fun p =>
    match p with
    | 1 => .PTR 1
    | 2 => .PTR 2
    | 3 => .BASE b1
    | _ => .BASE b0
  cell := fun c =>
    match c with
    | 1 => some 2
    | 2 => some 3
    | _ => none

/-- Exactly `k` successive successful calls of `step`, every one with recursion bound
`depth`: the computable counterpart of `Iter`. -/
def run (depth : Nat) : Nat → Heap → ExprPtr → Option (Heap × ExprPtr)
  | 0, h, e => some (h, e)
  | k + 1, h, e =>
    match step depth h e with
    | some (h1, some e1) => run depth k h1 e1
    | _ => none

/-- The application at node 1 of the reference at node 2, whose cell 1 holds the
abstraction at node 4 (cell 2, body 5), to the constant at node 3. -/
def repeat_heap : Heap where
  node := fun p =>
    match p with
    | 1 => .APP 2 3
    | 2 => .PTR 1
    | 3 => .BASE b1
    | 4 => .LAM 2 5
    | 5 => .PTR 2
    | _ => .BASE b0
  cell := fun c =>
    match c with
    | 1 => some 4
    | _ => none

/-- A well-formed closed term, as the fixtures build them before evaluation, checked
down to depth `n`: every binder cell is still empty and every reference is to the cell of
an abstraction that encloses it (`bound` lists the cells of the enclosing binders). -/
def closed_term : Nat → Heap → List CellPtr → ExprPtr → Bool
  | 0, _, _, _ => false
  | n + 1, h, bound, e =>
    match h.node e with
    | .APP f a => closed_term n h bound f && closed_term n h bound a
    | .LAM var body => (h.cell var).isNone && closed_term n h (var :: bound) body
    | .PTR p => decide (p ∈ bound) && (h.cell p).isNone
    | .BASE _ => true

/-- The term `(\f. (f A) (f K)) I`, with `I = \x. x` at node 3 (cell 2, body 5),
`A = \a. a` at node 9 (cell 3, body 12) and the constant `K` at node 11.  Node 1 is the
whole application, node 2 the abstraction `\f. ...` (cell 1), node 4 its body
`(f A) (f K)`, nodes 6 and 7 the applications `f A` and `f K`, nodes 8 and 10 the two
references to `f`. -/
def twice_heap : Heap where
  node := fun p =>
    match p with
    | 1 => .APP 2 3
    | 2 => .LAM 1 4
    | 3 => .LAM 2 5
    | 4 => .APP 6 7
    | 5 => .PTR 2
    | 6 => .APP 8 9
    | 7 => .APP 10 11
    | 8 => .PTR 1
    | 9 => .LAM 3 12
    | 10 => .PTR 1
    | 11 => .BASE b1
    | 12 => .PTR 3
    | _ => .BASE b0
  cell := fun _ => none

/-- The heap built by `test2`: `lam_id = makeIdFn()` at node 1 (cell 1, body 2),
`lam_true = makeLamTrue()` at node 5 with its cells `x` = 2 and `y` = 3, the reference
`inner` to `x` at node 3 and the abstraction `outer` on `y` at node 4, and
`app_true_id = makeApp(&lam_true, &lam_id)` at node 6. -/
def test2_heap : Heap where
  node := fun p =>
    match p with
    | 1 => .LAM 1 2
    | 2 => .PTR 1
    | 3 => .PTR 2
    | 4 => .LAM 3 3
    | 5 => .LAM 2 4
    | 6 => .APP 5 1
    | _ => .BASE b0
  cell := fun _ => none

/-- The heap built by `test3`: as `test2_heap`, with `lam_false = makeLamFalse()` at
node 5, whose reference `inner` at node 3 is to the cell `y` = 3 of `outer`. -/
def test3_heap : Heap where
  node := fun p =>
    match p with
    | 1 => .LAM 1 2
    | 2 => .PTR 1
    | 3 => .PTR 3
    | 4 => .LAM 3 3
    | 5 => .LAM 2 4
    | 6 => .APP 5 1
    | _ => .BASE b0
  cell := fun _ => none

/-- The constant `b0` ("zero") at node 2 applied, at node 1, to the constant `unit` at
node 3. -/
def zero_unit_heap : Heap where
  node := fun p =>
    match p with
    | 1 => .APP 2 3
    | 2 => .BASE b0
    | 3 => .BASE unit
    | _ => .BASE b0
  cell := fun _ => none

/-- The constant `b0` at node 2 applied, at node 1, to the reference at node 3, whose
cell 1 holds the constant `unit` at node 4. -/
def zero_ref_heap : Heap where
  node := fun p =>
    match p with
    | 1 => .APP 2 3
    | 2 => .BASE b0
    | 3 => .PTR 1
    | 4 => .BASE unit
    | _ => .BASE b0
  cell := fun c =>
    match c with
    | 1 => some 4
    | _ => none

/-- The term `(\x. x x) (\x. x x)`: the application at node 1 of the abstraction at
node 2 (cell 1, body the application at node 4 of the references 5 and 6 to cell 1) to
the abstraction at node 3 (cell 2, body the application at node 7 of the references 8
and 9 to cell 2). -/
def omega_heap : Heap where
  node := fun p =>
    match p with
    | 1 => .APP 2 3
    | 2 => .LAM 1 4
    | 3 => .LAM 2 7
    | 4 => .APP 5 6
    | 5 => .PTR 1
    | 6 => .PTR 1
    | 7 => .APP 8 9
    | 8 => .PTR 2
    | 9 => .PTR 2
    | _ => .BASE b0
  cell := fun _ => none

/-- The nodes and cells of `omega_heap` after six successful calls of `step`: both cells
hold the abstraction at node 3, and the current term, node 7, is the application of
node 3 to itself.  The graph is cyclic through the cells and through the body of
node 3. -/
def omega_loop_heap : Heap where
  node := fun p =>
    match p with
    | 1 => .APP 2 3
    | 2 => .LAM 1 4
    | 3 => .LAM 2 7
    | 4 => .APP 3 3
    | 5 => .PTR 1
    | 6 => .PTR 1
    | 7 => .APP 3 3
    | 8 => .PTR 2
    | 9 => .PTR 2
    | _ => .BASE b0
  cell := fun c =>
    match c with
    | 1 => some 3
    | 2 => some 3
    | _ => none

/-- The function/argument structure below `t` is a tree of depth less than `n`: the
nodes met from `t` through `fun` and `arg` fields only, whatever lies in abstraction
bodies and in cells. -/
def spine_finite : Nat → Heap → ExprPtr → Bool
  | 0, _, _ => false
  | n + 1, h, t =>
    match h.node t with
    | .APP f a => spine_finite n h f && spine_finite n h a
    | _ => true

/-- Within depth `n`, no node met from `v` through `fun` and `arg` fields is a reference
to cell `c`. -/
def spine_avoids : Nat → Heap → CellPtr → ExprPtr → Bool
  | 0, _, _, _ => false
  | n + 1, h, c, v =>
    match h.node v with
    | .APP f a => spine_avoids n h c f && spine_avoids n h c a
    | .PTR p => decide (p ≠ c)
    | _ => true

/-- One link of the graph from node `u` to node `v` that does not pass through an
abstraction with binder `c`: a function or argument slot, the body of an abstraction
whose binder is not `c`, or the contents of the cell of a reference. -/
def Link (h : Heap) (c : CellPtr) (u v : ExprPtr) : Prop :=
  (∃ a, h.node u = .APP v a) ∨ (∃ f, h.node u = .APP f v) ∨
    (∃ var, h.node u = .LAM var v ∧ var ≠ c) ∨
    (∃ p, h.node u = .PTR p ∧ h.cell p = some v)

/-- The term at `t` is closed in heap `h`: no reference `r` to an empty cell `c` can be
reached from `t`, through function, argument, body and cell-content links, without
passing through an abstraction whose binder is `c`. -/
def Closed (h : Heap) (t : ExprPtr) : Prop :=
  ∀ (c : CellPtr) (r : ExprPtr), h.cell c = none → h.node r = .PTR c →
    ¬ Relation.ReflTransGen (Link h c) t r

/-- A stuck application inside a stuck application: node 1 applies node 2, itself the
application of the constant at node 4 to the constant at node 5, to the constant at
node 3. -/
def nested_stuck_heap : Heap where
  node := fun p =>
    match p with
    | 1 => .APP 2 3
    | 2 => .APP 4 5
    | 3 => .BASE unit
    | 4 => .BASE b0
    | 5 => .BASE b1
    | _ => .BASE b0
  cell := fun _ => none

/-- The node `v` is in the function slot or in the argument slot of the application
`u`. -/
def Slot (h : Heap) (u v : ExprPtr) : Prop :=
  ∃ f a, h.node u = .APP f a ∧ (v = f ∨ v = a)

/-- The heap of `makeApp(&lam_true, &lam_true)`: `lam_true = makeLamTrue()` at node 5
with its cells `x` = 2 and `y` = 3, `inner` at node 3 and `outer` at node 4, applied to
itself at node 6. -/
def true_true_heap : Heap where
  node := fun p =>
    match p with
    | 3 => .PTR 2
    | 4 => .LAM 3 3
    | 5 => .LAM 2 4
    | 6 => .APP 5 5
    | _ => .BASE b0
  cell := fun _ => none

/-- The term `(\f. f f) (\x. x)` at node 1, with `\f. f f` at node 2 (cell 1, body the
application at node 4 of the references 6 and 7) and `\x. x` at node 3 (cell 2, body the
reference at node 5), all cells empty; and three applications to that same `\x. x`: of
`makeLamFalse()` (node 10, cells 3 and 4, `outer` at node 9, `inner` at node 8) at node
11, of the constant `b0` (node 12) at node 13, and of a second identity (node 14, cell 5,
body 15) at node 16. -/
def self_apply_heap : Heap where
  node := fun p =>
    match p with
    | 1 => .APP 2 3
    | 2 => .LAM 1 4
    | 3 => .LAM 2 5
    | 4 => .APP 6 7
    | 5 => .PTR 2
    | 6 => .PTR 1
    | 7 => .PTR 1
    | 8 => .PTR 4
    | 9 => .LAM 4 8
    | 10 => .LAM 3 9
    | 11 => .APP 10 3
    | 12 => .BASE b0
    | 13 => .APP 12 3
    | 14 => .LAM 5 15
    | 15 => .PTR 5
    | 16 => .APP 14 3
    | _ => .BASE b0
  cell := fun _ => none

/-- The heap that five successful calls of `step` from node 1 of `self_apply_heap`
leave: cell 2, the binder cell of `\x. x` at node 3, holds node 3 itself. -/
def self_apply_heap_5 : Heap :=
  (((self_apply_heap.set_cell 1 3).set_node 4 (.APP 3 7)).set_node 4 (.APP 3 3)).set_cell 2 3

/-- The heap that three successful calls of `step` from node 1 of `twice_heap` leave:
the redex `I A` has fired and cell 2 holds node 9. -/
def twice_heap_3 : Heap :=
  ((((twice_heap.set_cell 1 3).set_node 6 (.APP 3 9)).set_node 4 (.APP 6 7)).set_cell
    2 9).set_node 4 (.APP 5 7)

/-- The heap that three more successful calls leave: the redex `I K` has fired and cell 2
holds node 11. -/
def twice_heap_6 : Heap :=
  ((((twice_heap_3.set_node 4 (.APP 9 7)).set_node 7 (.APP 3 11)).set_node 4
    (.APP 9 7)).set_cell 2 11).set_node 4 (.APP 9 5)

/-- The call of `step` on `t` in heap `h` reaches the application `y` and fires it as a
redex: it goes down through function slots, and through argument slots whose function
slot returned `NULL`, to an application `y` both of whose slots return `NULL` and whose
function is an abstraction. -/
inductive Fires (h : Heap) : ExprPtr → ExprPtr → Prop where
  | here {t f a body : ExprPtr} {c : CellPtr} :
      h.node t = .APP f a → Returns h f h none → Returns h a h none →
      h.node f = .LAM c body → Fires h t t
  | fn {t f a y : ExprPtr} : h.node t = .APP f a → Fires h f y → Fires h t y
  | arg {t f a y : ExprPtr} :
      h.node t = .APP f a → Returns h f h none → Fires h a y → Fires h t y

/-! ## Basic facts about `step` -/

/-- More fuel does not change a result. -/
theorem step_mono_succ : ∀ (n : Nat) (h : Heap) (e : ExprPtr) (r : Heap × Option ExprPtr),
    step n h e = some r → step (n + 1) h e = some r := by
  intro n
  induction n with
  | zero => intro h e r hr; simp [step] at hr
  | succ n ih =>
    intro h e r hr
    rw [step] at hr
    rw [step]
    cases hn : h.node e with
    | LAM v b => rw [hn] at hr; simpa using hr
    | PTR p => rw [hn] at hr; simpa using hr
    | BASE b => rw [hn] at hr; simpa using hr
    | APP f a =>
      rw [hn] at hr
      simp only at hr ⊢
      cases hf : step n h f with
      | none => rw [hf] at hr; simp at hr
      | some rf =>
        rw [hf] at hr
        rw [ih h f rf hf]
        obtain ⟨h1, _ | f2⟩ := rf
        · simp only at hr ⊢
          cases h1e : h1.node e with
          | APP f1 a1 =>
            rw [h1e] at hr
            simp only at hr ⊢
            cases ha : step n h1 a1 with
            | none => rw [ha] at hr; simp at hr
            | some ra =>
              rw [ha] at hr
              rw [ih h1 a1 ra ha]
              exact hr
          | LAM v b => rw [h1e] at hr; simp at hr
          | PTR p => rw [h1e] at hr; simp at hr
          | BASE b => rw [h1e] at hr; simp at hr
        · exact hr

theorem step_mono {n m : Nat} {h : Heap} {e : ExprPtr} {r : Heap × Option ExprPtr}
    (hnm : n ≤ m) (hr : step n h e = some r) : step m h e = some r := by
  induction hnm with
  | refl => exact hr
  | step _ ih => exact step_mono_succ _ h e r ih

/-- The result of `step` does not depend on the fuel that produced it. -/
theorem step_fuel_unique {n m : Nat} {h : Heap} {e : ExprPtr}
    {r1 r2 : Heap × Option ExprPtr}
    (h1 : step n h e = some r1) (h2 : step m h e = some r2) : r1 = r2 := by
  have a := step_mono (Nat.le_max_left n m) h1
  have b := step_mono (Nat.le_max_right n m) h2
  rw [a] at b
  exact Option.some.inj b

/-- A call of `step` that returns `NULL` has written nothing. -/
theorem step_none_heap : ∀ (n : Nat) (h : Heap) (e : ExprPtr) (h1 : Heap),
    step n h e = some (h1, none) → h1 = h := by
  intro n
  induction n with
  | zero => intro h e h1 hr; simp [step] at hr
  | succ n ih =>
    intro h e h' hr
    rw [step] at hr
    cases hn : h.node e with
    | LAM v b => rw [hn] at hr; simp at hr; exact hr.symm
    | PTR p => rw [hn] at hr; simp at hr; exact hr.1.symm
    | BASE b => rw [hn] at hr; simp at hr; exact hr.symm
    | APP f a =>
      rw [hn] at hr
      simp only at hr
      cases hf : step n h f with
      | none => rw [hf] at hr; simp at hr
      | some rf =>
        rw [hf] at hr
        obtain ⟨h1, _ | f2⟩ := rf
        · have e1 : h1 = h := ih h f h1 hf
          subst e1
          simp only [hn] at hr
          cases ha : step n h1 a with
          | none => rw [ha] at hr; simp at hr
          | some ra =>
            rw [ha] at hr
            obtain ⟨h2, _ | a2⟩ := ra
            · have e2 : h2 = h1 := ih h1 a h2 ha
              subst e2
              simp only [hn] at hr
              cases hfn : h2.node f with
              | LAM v b => rw [hfn] at hr; simp at hr
              | PTR p => rw [hfn] at hr; simp at hr; exact hr.symm
              | BASE b => rw [hfn] at hr; simp at hr; exact hr.symm
              | APP f a => rw [hfn] at hr; simp at hr; exact hr.symm
            · simp only at hr
              cases h2e : h2.node e <;> rw [h2e] at hr <;> simp at hr
        · simp only at hr
          cases h1e : h1.node e <;> rw [h1e] at hr <;> simp at hr

/-- Unfolding of `step` on an application, with the heap known to be unchanged by the
calls that returned `NULL`. -/
theorem step_app {n : Nat} {h : Heap} {e f a : ExprPtr} (hn : h.node e = .APP f a) :
    step (n + 1) h e =
      match step n h f with
      | none => none
      | some (h1, some f2) =>
        match h1.node e with
        | .APP _ a1 => some (h1.set_node e (.APP f2 a1), some e)
        | _ => none
      | some (_, none) =>
        match step n h a with
        | none => none
        | some (h2, some arg2) =>
          match h2.node e with
          | .APP f3 _ => some (h2.set_node e (.APP f3 arg2), some e)
          | _ => none
        | some (_, none) =>
          match h.node f with
          | .LAM var body => some (h.set_cell var a, some body)
          | _ => some (h, none) := by
  rw [step, hn]
  simp only
  cases hf : step n h f with
  | none => rfl
  | some rf =>
    obtain ⟨h1, _ | f2⟩ := rf
    · have e1 : h1 = h := step_none_heap n h f h1 hf
      subst e1
      simp only [hn]
      cases ha : step n h1 a with
      | none => rfl
      | some ra =>
        obtain ⟨h2, _ | a2⟩ := ra
        · have e2 : h2 = h1 := step_none_heap n h1 a h2 ha
          subst e2
          simp only [hn]
        · rfl
    · rfl

@[simp] theorem set_node_node_self (h : Heap) (e : ExprPtr) (v : expr) :
    (h.set_node e v).node e = v := by
  simp [Heap.set_node]

theorem set_node_node_ne (h : Heap) {e y : ExprPtr} (v : expr) (hy : y ≠ e) :
    (h.set_node e v).node y = h.node y := by
  simp [Heap.set_node, Function.update_noteq hy]

@[simp] theorem set_node_cell (h : Heap) (e : ExprPtr) (v : expr) :
    (h.set_node e v).cell = h.cell := rfl

@[simp] theorem set_cell_node (h : Heap) (c : CellPtr) (a : ExprPtr) :
    (h.set_cell c a).node = h.node := rfl

@[simp] theorem set_cell_cell_self (h : Heap) (c : CellPtr) (a : ExprPtr) :
    (h.set_cell c a).cell c = some a := by
  simp [Heap.set_cell]

theorem set_cell_cell_ne (h : Heap) {c d : CellPtr} (a : ExprPtr) (hd : d ≠ c) :
    (h.set_cell c a).cell d = h.cell d := by
  simp [Heap.set_cell, Function.update_noteq hd]

/-- What a call of `step` can do to a node `y`: nothing, or replace the slots of an
application on which `step` was itself called, with no more fuel, in the same heap. -/
theorem step_node_frame : ∀ (n : Nat) (h : Heap) (x : ExprPtr) (h' : Heap)
    (r : Option ExprPtr), step n h x = some (h', r) → ∀ y : ExprPtr,
      h'.node y = h.node y ∨
        ((∃ f a f' a', h.node y = .APP f a ∧ h'.node y = .APP f' a') ∧
          ∃ k, k ≤ n ∧ ∃ ry, step k h y = some ry) := by
  intro n
  induction n with
  | zero => intro h x h' r hr; simp [step] at hr
  | succ n ih =>
    intro h x h' r hr y
    have hr0 := hr
    cases hn : h.node x with
    | LAM v b =>
      rw [step, hn] at hr; simp at hr; left; rw [← hr.1]
    | PTR p =>
      rw [step, hn] at hr; simp at hr; left; rw [← hr.1]
    | BASE b =>
      rw [step, hn] at hr; simp at hr; left; rw [← hr.1]
    | APP f a =>
      rw [step_app hn] at hr
      cases hf : step n h f with
      | none => rw [hf] at hr; simp at hr
      | some rf =>
        rw [hf] at hr
        obtain ⟨h1, _ | f2⟩ := rf
        · simp only at hr
          cases ha : step n h a with
          | none => rw [ha] at hr; simp at hr
          | some ra =>
            rw [ha] at hr
            obtain ⟨h2, _ | a2⟩ := ra
            · simp only at hr
              left
              cases hfn : h.node f <;> rw [hfn] at hr <;> simp at hr <;> simp [← hr.1]
            · simp only at hr
              cases h2x : h2.node x with
              | APP f3 a3 =>
                rw [h2x] at hr
                simp at hr
                by_cases hy : y = x
                · subst hy
                  right
                  refine ⟨⟨f, a, f3, a2, hn, ?_⟩, n + 1, le_refl _, _, hr0⟩
                  rw [← hr.1]; simp
                · rw [← hr.1, set_node_node_ne _ _ hy]
                  rcases ih h a h2 _ ha y with h0 | ⟨h0, k, hk, hk2⟩
                  · left; exact h0
                  · right; exact ⟨h0, k, Nat.le_succ_of_le hk, hk2⟩
              | LAM v b => rw [h2x] at hr; simp at hr
              | PTR p => rw [h2x] at hr; simp at hr
              | BASE b => rw [h2x] at hr; simp at hr
        · simp only at hr
          cases h1x : h1.node x with
          | APP f3 a3 =>
            rw [h1x] at hr
            simp at hr
            by_cases hy : y = x
            · subst hy
              right
              refine ⟨⟨f, a, f2, a3, hn, ?_⟩, n + 1, le_refl _, _, hr0⟩
              rw [← hr.1]; simp
            · rw [← hr.1, set_node_node_ne _ _ hy]
              rcases ih h f h1 _ hf y with h0 | ⟨h0, k, hk, hk2⟩
              · left; exact h0
              · right; exact ⟨h0, k, Nat.le_succ_of_le hk, hk2⟩
          | LAM v b => rw [h1x] at hr; simp at hr
          | PTR p => rw [h1x] at hr; simp at hr
          | BASE b => rw [h1x] at hr; simp at hr

/-- A call of `step` on `e` that returns has not written the node `e` through its
recursive call on the function slot. -/
theorem step_fun_keeps_self : ∀ (m : Nat) (h : Heap) (e f a : ExprPtr)
    (r : Heap × Option ExprPtr) (n : Nat) (h1 : Heap) (r1 : Option ExprPtr),
    step m h e = some r → h.node e = .APP f a → step n h f = some (h1, r1) →
    h1.node e = h.node e := by
  intro m
  induction m using Nat.strong_induction_on with
  | _ m ih =>
    intro h e f a r n h1 r1 hr hn hf
    rcases step_node_frame n h f h1 r1 hf e with h0 | ⟨_, k, hk, ry, hky⟩
    · exact h0
    · cases m with
      | zero => simp [step] at hr
      | succ m =>
        rw [step_app hn] at hr
        cases hf' : step m h f with
        | none => rw [hf'] at hr; simp at hr
        | some rf =>
          have hrf : rf = (h1, r1) := step_fuel_unique hf' hf
          subst hrf
          rcases step_node_frame m h f h1 r1 hf' e with h0 | ⟨_, j, hj, rj, hjy⟩
          · exact h0
          · exact ih j (Nat.lt_succ_of_le hj) h e f a rj n h1 r1 hjy hn hf

/-- A call of `step` on `e` that returns has not written the node `e` through its
recursive call on the argument slot. -/
theorem step_arg_keeps_self : ∀ (m : Nat) (h : Heap) (e f a : ExprPtr)
    (r : Heap × Option ExprPtr) (n n' : Nat) (h1 h2 : Heap) (r2 : Option ExprPtr),
    step m h e = some r → h.node e = .APP f a → step n h f = some (h1, none) →
    step n' h a = some (h2, r2) → h2.node e = h.node e := by
  intro m
  induction m using Nat.strong_induction_on with
  | _ m ih =>
    intro h e f a r n n' h1 h2 r2 hr hn hf ha
    cases m with
    | zero => simp [step] at hr
    | succ m =>
      rw [step_app hn] at hr
      cases hf' : step m h f with
      | none => rw [hf'] at hr; simp at hr
      | some rf =>
        have hrf : rf = (h1, none) := step_fuel_unique hf' hf
        subst hrf
        rw [hf'] at hr
        simp only at hr
        cases ha' : step m h a with
        | none => rw [ha'] at hr; simp at hr
        | some ra =>
          have hra : ra = (h2, r2) := step_fuel_unique ha' ha
          subst hra
          rcases step_node_frame m h a h2 r2 ha' e with h0 | ⟨_, j, hj, rj, hjy⟩
          · exact h0
          · exact ih j (Nat.lt_succ_of_le hj) h e f a rj n n' h1 h2 r2 hjy hn hf ha

/-- What a call of `step` can do to the cells: nothing, or the one write of a redex `y`
of the starting heap, an application of an abstraction with binder `c` to `a`, which puts
`a` into `c`. -/
theorem step_cell_frame : ∀ (n : Nat) (h : Heap) (x : ExprPtr) (h' : Heap)
    (r : Option ExprPtr), step n h x = some (h', r) →
      h'.cell = h.cell ∨
        ∃ y f a c body, h.node y = .APP f a ∧ h.node f = .LAM c body ∧
          h'.cell = (h.set_cell c a).cell ∧ r ≠ none := by
  intro n
  induction n with
  | zero => intro h x h' r hr; simp [step] at hr
  | succ n ih =>
    intro h x h' r hr
    cases hn : h.node x with
    | LAM v b =>
      rw [step, hn] at hr; simp at hr; left; rw [← hr.1]
    | PTR p =>
      rw [step, hn] at hr; simp at hr; left; rw [← hr.1]
    | BASE b =>
      rw [step, hn] at hr; simp at hr; left; rw [← hr.1]
    | APP f a =>
      rw [step_app hn] at hr
      cases hf : step n h f with
      | none => rw [hf] at hr; simp at hr
      | some rf =>
        rw [hf] at hr
        obtain ⟨h1, _ | f2⟩ := rf
        · simp only at hr
          cases ha : step n h a with
          | none => rw [ha] at hr; simp at hr
          | some ra =>
            rw [ha] at hr
            obtain ⟨h2, _ | a2⟩ := ra
            · simp only at hr
              cases hfn : h.node f with
              | LAM v b =>
                rw [hfn] at hr
                simp at hr
                right
                exact ⟨x, f, a, v, b, hn, hfn, by rw [← hr.1], by rw [← hr.2]; simp⟩
              | APP f' a' => rw [hfn] at hr; simp at hr; left; rw [← hr.1]
              | PTR p => rw [hfn] at hr; simp at hr; left; rw [← hr.1]
              | BASE b => rw [hfn] at hr; simp at hr; left; rw [← hr.1]
            · simp only at hr
              cases h2x : h2.node x with
              | APP f3 a3 =>
                rw [h2x] at hr
                simp at hr
                rcases ih h a h2 _ ha with h0 | ⟨y, f', a', c, body, hy, hf'', hc, _⟩
                · left; rw [← hr.1]; exact h0
                · right
                  exact ⟨y, f', a', c, body, hy, hf'', by rw [← hr.1]; exact hc,
                    by rw [← hr.2]; simp⟩
              | LAM v b => rw [h2x] at hr; simp at hr
              | PTR p => rw [h2x] at hr; simp at hr
              | BASE b => rw [h2x] at hr; simp at hr
        · simp only at hr
          cases h1x : h1.node x with
          | APP f3 a3 =>
            rw [h1x] at hr
            simp at hr
            rcases ih h f h1 _ hf with h0 | ⟨y, f', a', c, body, hy, hf'', hc, _⟩
            · left; rw [← hr.1]; exact h0
            · right
              exact ⟨y, f', a', c, body, hy, hf'', by rw [← hr.1]; exact hc,
                by rw [← hr.2]; simp⟩
          | LAM v b => rw [h1x] at hr; simp at hr
          | PTR p => rw [h1x] at hr; simp at hr
          | BASE b => rw [h1x] at hr; simp at hr

/-- The second rule of `step` on an application: the function slot returns `NULL`, the
argument slot steps. -/
theorem step_app_arg_steps {h h2 : Heap} {e f a a2 : ExprPtr} {n m : Nat}
    (he : h.node e = .APP f a) (hfn : step n h f = some (h, none))
    (han : step m h a = some (h2, some a2)) {k : Nat} (hk : max n m < k) :
    h2.node e = .APP f a ∧ step k h e = some (h2.set_node e (.APP f a2), some e) := by
  obtain ⟨k, rfl⟩ : ∃ k', k = k' + 1 := ⟨k - 1, by omega⟩
  have hf' := step_mono (m := k) (by omega) hfn
  have ha' := step_mono (m := k) (by omega) han
  have hstep := step_app (n := k) he
  rw [hf'] at hstep
  simp only [ha'] at hstep
  have h2e : h2.node e = .APP f a := by
    rcases step_node_frame k h a h2 _ ha' e with h0 | ⟨⟨f0, a0, f1, a1, h0, h2e⟩, _⟩
    · rw [h0, he]
    · rw [h2e] at hstep
      rw [step_arg_keeps_self (k + 1) h e f a _ k k h h2 _ hstep he hf' ha', he]
  rw [h2e] at hstep
  exact ⟨h2e, hstep⟩

/-! ## Facts about `expr2s` and `eval` -/

theorem expr2s_mono_succ : ∀ (n : Nat) (h : Heap) (e : ExprPtr) (u : Unit),
    expr2s n h e = some u → expr2s (n + 1) h e = some u := by
  intro n
  induction n with
  | zero => intro h e u hu; simp [expr2s] at hu
  | succ n ih =>
    intro h e u hu
    rw [expr2s] at hu
    rw [expr2s]
    cases hn : h.node e with
    | LAM v b => rw [hn] at hu; exact ih h b u hu
    | BASE b => rfl
    | PTR p =>
      rw [hn] at hu
      simp only at hu ⊢
      cases hc : h.cell p with
      | none => rfl
      | some t => rw [hc] at hu; exact ih h t u hu
    | APP f a =>
      rw [hn] at hu
      simp only at hu ⊢
      cases hf : expr2s n h f with
      | none => rw [hf] at hu; simp at hu
      | some uf =>
        rw [hf] at hu
        rw [ih h f uf hf]
        exact ih h a u hu

theorem expr2s_mono {n m : Nat} {h : Heap} {e : ExprPtr} {u : Unit}
    (hnm : n ≤ m) (hu : expr2s n h e = some u) : expr2s m h e = some u := by
  induction hnm with
  | refl => exact hu
  | step _ ih => exact expr2s_mono_succ _ h e u ih

/-- Unfolding of one turn of the loop of `eval` whose call of `step` succeeds. -/
theorem eval_succ_some {d k : Nat} {h h1 : Heap} {e e1 : ExprPtr} {u : Unit}
    (hp : expr2s d h e = some u) (hs : step d h e = some (h1, some e1)) :
    eval d (k + 1) h e = eval d k h1 e1 := by
  rw [eval, hp, hs]

/-- Unfolding of the last turn of the loop of `eval`. -/
theorem eval_succ_none {d k : Nat} {h h1 : Heap} {e : ExprPtr} {u : Unit}
    (hp : expr2s d h e = some u) (hs : step d h e = some (h1, none)) :
    eval d (k + 1) h e = some (h1, e) := by
  rw [eval, hp, hs]

/-- What a turn of the loop of `eval` that does not give up has done. -/
theorem eval_succ_inv {d k : Nat} {h : Heap} {e : ExprPtr} {x : Heap × ExprPtr}
    (hx : eval d (k + 1) h e = some x) :
    expr2s d h e = some () ∧
      ((∃ h1 e1, step d h e = some (h1, some e1) ∧ eval d k h1 e1 = some x) ∨
        (∃ h1, step d h e = some (h1, none) ∧ x = (h1, e))) := by
  rw [eval] at hx
  cases hp : expr2s d h e with
  | none => rw [hp] at hx; simp at hx
  | some u =>
    rw [hp] at hx
    simp only at hx
    refine ⟨rfl, ?_⟩
    cases hs : step d h e with
    | none => rw [hs] at hx; simp at hx
    | some rs =>
      rw [hs] at hx
      obtain ⟨h1, _ | e3⟩ := rs
      · right
        simp only [Option.some.injEq] at hx
        exact ⟨h1, rfl, hx.symm⟩
      · left
        exact ⟨h1, e3, rfl, hx⟩

theorem eval_mono_depth {d d' : Nat} (hd : d ≤ d') : ∀ (k : Nat) (h : Heap) (e : ExprPtr)
    (x : Heap × ExprPtr), eval d k h e = some x → eval d' k h e = some x := by
  intro k
  induction k with
  | zero => intro h e x hx; simp [eval] at hx
  | succ k ih =>
    intro h e x hx
    obtain ⟨hp, ⟨h1, e1, hs, hrest⟩ | ⟨h1, hs, hxe⟩⟩ := eval_succ_inv hx
    · rw [eval_succ_some (expr2s_mono hd hp) (step_mono hd hs)]
      exact ih h1 e1 x hrest
    · rw [eval_succ_none (expr2s_mono hd hp) (step_mono hd hs), hxe]

theorem eval_mono_succ (d : Nat) : ∀ (k : Nat) (h : Heap) (e : ExprPtr)
    (x : Heap × ExprPtr), eval d k h e = some x → eval d (k + 1) h e = some x := by
  intro k
  induction k with
  | zero => intro h e x hx; simp [eval] at hx
  | succ k ih =>
    intro h e x hx
    obtain ⟨hp, ⟨h1, e1, hs, hrest⟩ | ⟨h1, hs, hxe⟩⟩ := eval_succ_inv hx
    · rw [eval_succ_some hp hs]
      exact ih h1 e1 x hrest
    · rw [eval_succ_none hp hs, hxe]

/-- The last call of `step` made by a run of `eval` that returns. -/
theorem eval_last_step (d : Nat) : ∀ (k : Nat) (h : Heap) (e : ExprPtr) (h' : Heap)
    (r : ExprPtr), eval d k h e = some (h', r) → step d h' r = some (h', none) := by
  intro k
  induction k with
  | zero => intro h e h' r hx; simp [eval] at hx
  | succ k ih =>
    intro h e h' r hx
    obtain ⟨_, ⟨h1, e1, _, hrest⟩ | ⟨h1, hs, hxe⟩⟩ := eval_succ_inv hx
    · exact ih h1 e1 h' r hrest
    · simp only [Prod.mk.injEq] at hxe
      have e1 : h1 = h := step_none_heap d h e h1 hs
      rw [hxe.1, hxe.2, e1]
      rw [e1] at hs
      exact hs

/-- The last call of `expr2s` made by a run of `eval` that returns: it printed the
result in the final heap. -/
theorem eval_last_print (d : Nat) : ∀ (k : Nat) (h : Heap) (e : ExprPtr) (h' : Heap)
    (r : ExprPtr), eval d k h e = some (h', r) → expr2s d h' r = some () := by
  intro k
  induction k with
  | zero => intro h e h' r hx; simp [eval] at hx
  | succ k ih =>
    intro h e h' r hx
    obtain ⟨hp, ⟨h1, e1, _, hrest⟩ | ⟨h1, hs, hxe⟩⟩ := eval_succ_inv hx
    · exact ih h1 e1 h' r hrest
    · simp only [Prod.mk.injEq] at hxe
      have e1 : h1 = h := step_none_heap d h e h1 hs
      rw [hxe.1, hxe.2, e1]
      exact hp

theorem eval_to_iter (d : Nat) : ∀ (k : Nat) (h : Heap) (e : ExprPtr) (h' : Heap)
    (r : ExprPtr), eval d k h e = some (h', r) → ∃ n, n < k ∧ Iter n h e h' r := by
  intro k
  induction k with
  | zero => intro h e h' r hx; simp [eval] at hx
  | succ k ih =>
    intro h e h' r hx
    obtain ⟨_, ⟨h1, e1, hs, hrest⟩ | ⟨h1, hs, hxe⟩⟩ := eval_succ_inv hx
    · obtain ⟨n, hn, hi⟩ := ih h1 e1 h' r hrest
      exact ⟨n + 1, Nat.succ_lt_succ hn, Iter.succ ⟨d, hs⟩ hi⟩
    · simp only [Prod.mk.injEq] at hxe
      have e1 : h1 = h := step_none_heap d h e h1 hs
      rw [hxe.1, hxe.2, e1]
      exact ⟨0, Nat.succ_pos k, Iter.zero h e⟩

/-- `eval` gives no result on a term whose printing does not return. -/
theorem eval_none_of_print_none {h : Heap} {e : ExprPtr} (hp : ∀ d, expr2s d h e = none) :
    ∀ d k, eval d k h e = none := by
  intro d k
  cases k with
  | zero => rfl
  | succ k => rw [eval, hp d]

/-- `eval` gives no result on a term that steps to a term on which it gives none. -/
theorem eval_none_of_next {h h1 : Heap} {e e1 : ExprPtr} {d0 : Nat}
    (hs : step d0 h e = some (h1, some e1)) (hn : ∀ d k, eval d k h1 e1 = none) :
    ∀ d k, eval d k h e = none := by
  intro d k
  cases hev : eval d k h e with
  | none => rfl
  | some x =>
    exfalso
    cases k with
    | zero => simp [eval] at hev
    | succ k =>
      obtain ⟨_, ⟨h2, e2, hs2, hrest⟩ | ⟨h2, hs2, _⟩⟩ := eval_succ_inv hev
      · have := step_fuel_unique hs2 hs
        simp only [Prod.mk.injEq, Option.some.injEq] at this
        rw [this.1, this.2, hn d k] at hrest
        cases hrest
      · have := step_fuel_unique hs2 hs
        simp at this

/-- `expr2s` does not return on a term from which it is led, call after call, through a
set of nodes each of which hands it on to another node of the set. -/
theorem expr2s_none_of_cycle {h : Heap} (S : ExprPtr → Prop)
    (hS : ∀ u, S u → ∃ v, S v ∧
      ((∃ var, h.node u = .LAM var v) ∨ (∃ a, h.node u = .APP v a) ∨
        (∃ f, h.node u = .APP f v) ∨ (∃ p, h.node u = .PTR p ∧ h.cell p = some v))) :
    ∀ (n : Nat) (u : ExprPtr), S u → expr2s n h u = none := by
  intro n
  induction n with
  | zero => intro u _; rfl
  | succ n ih =>
    intro u hu
    obtain ⟨v, hv, hl⟩ := hS u hu
    have hvn := ih v hv
    rw [expr2s]
    rcases hl with ⟨var, hn⟩ | ⟨a, hn⟩ | ⟨f, hn⟩ | ⟨p, hn, hc⟩
    · rw [hn]; exact hvn
    · rw [hn]; simp only [hvn]
    · rw [hn]
      simp only
      cases expr2s n h f with
      | none => rfl
      | some _ => exact hvn
    · rw [hn]; simp only [hc]; exact hvn

theorem run_to_iter (d : Nat) : ∀ (k : Nat) (h : Heap) (e : ExprPtr) (h' : Heap)
    (r : ExprPtr), run d k h e = some (h', r) → Iter k h e h' r := by
  intro k
  induction k with
  | zero =>
    intro h e h' r hx
    simp [run] at hx
    rw [← hx.1, ← hx.2]
    exact Iter.zero h e
  | succ k ih =>
    intro h e h' r hx
    rw [run] at hx
    cases hs : step d h e with
    | none => rw [hs] at hx; simp at hx
    | some rs =>
      rw [hs] at hx
      obtain ⟨h1, _ | e3⟩ := rs
      · simp at hx
      · exact Iter.succ ⟨d, hs⟩ (ih h1 e3 h' r hx)

/-! ## Further facts used by the scenarios -/

theorem set_cell_same {h : Heap} {c : CellPtr} {a : ExprPtr} (hc : h.cell c = some a) :
    h.set_cell c a = h := by
  cases h with
  | mk node cell =>
    simp only [Heap.set_cell, Heap.mk.injEq, true_and]
    rw [← hc]
    exact Function.update_eq_self c cell

/-- The third rule of `step` on an application: both slots return `NULL` and the function
is an abstraction. -/
theorem step_app_beta {h ha : Heap} {e f a body : ExprPtr} {c : CellPtr} {m k : Nat}
    (he : h.node e = .APP f a) (hlam : h.node f = .LAM c body)
    (han : step m h a = some (ha, none)) (hk : m < k) :
    step k h e = some (h.set_cell c a, some body) := by
  obtain ⟨k, rfl⟩ : ∃ k', k = k' + 1 := ⟨k - 1, by omega⟩
  have hk1 : 1 ≤ k := by
    cases m with
    | zero => simp [step] at han
    | succ m => omega
  have hf1 : step 1 h f = some (h, none) := by rw [step, hlam]
  have hf' := step_mono hk1 hf1
  have ha' := step_mono (m := k) (by omega) han
  rw [step_app he, hf']
  simp only [ha', hlam]

/-- The fourth rule of `step` on an application: both slots return `NULL` and the
function is not an abstraction. -/
theorem step_app_stuck {h hf ha : Heap} {e f a : ExprPtr} {n m k : Nat}
    (he : h.node e = .APP f a) (hnl : ∀ c body, h.node f ≠ .LAM c body)
    (hfn : step n h f = some (hf, none)) (han : step m h a = some (ha, none))
    (hk : max n m < k) :
    step k h e = some (h, none) := by
  obtain ⟨k, rfl⟩ : ∃ k', k = k' + 1 := ⟨k - 1, by omega⟩
  have hf' := step_mono (m := k) (by omega) hfn
  have ha' := step_mono (m := k) (by omega) han
  rw [step_app he, hf']
  cases hfn' : h.node f with
  | LAM c body => exact absurd hfn' (hnl c body)
  | APP f' a' => simp only [ha']
  | PTR p => simp only [ha']
  | BASE b => simp only [ha']

/-- A call of `step` that returns `NULL` still does so after a write to a cell to which
no reference on the function/argument structure of the term refers. -/
theorem step_none_set_cell (c : CellPtr) (a : ExprPtr) : ∀ (n : Nat) (h h1 : Heap)
    (v : ExprPtr) (k : Nat), step n h v = some (h1, none) → spine_avoids k h c v = true →
      step n (h.set_cell c a) v = some (h.set_cell c a, none) := by
  intro n
  induction n with
  | zero => intro h h1 v k hr; simp [step] at hr
  | succ n ih =>
    intro h h1 v k hr hav
    cases k with
    | zero => simp [spine_avoids] at hav
    | succ k =>
      rw [spine_avoids] at hav
      cases hn : h.node v with
      | LAM x b => rw [step]; simp [hn]
      | BASE b => rw [step]; simp [hn]
      | PTR p =>
        rw [hn] at hav
        simp only [ne_eq, decide_not, Bool.not_eq_eq_eq_not, Bool.not_true,
          decide_eq_false_iff_not] at hav
        rw [step, hn] at hr
        simp only [Option.some.injEq, Prod.mk.injEq] at hr
        rw [step]
        simp [hn, set_cell_cell_ne _ _ hav, hr.2]
      | APP f a' =>
        rw [hn] at hav
        simp only [Bool.and_eq_true] at hav
        rw [step_app hn] at hr
        have hn' : (h.set_cell c a).node v = .APP f a' := hn
        rw [step_app hn']
        cases hf : step n h f with
        | none => rw [hf] at hr; simp at hr
        | some rf =>
          rw [hf] at hr
          obtain ⟨hf1, _ | f2⟩ := rf
          · simp only at hr
            rw [ih h hf1 f k hf hav.1]
            cases ha : step n h a' with
            | none => rw [ha] at hr; simp at hr
            | some ra =>
              rw [ha] at hr
              obtain ⟨ha1, _ | a2⟩ := ra
              · simp only at hr
                rw [ih h ha1 a' k ha hav.2]
                simp only [set_cell_node]
                cases hfn : h.node f with
                | LAM x b => rw [hfn] at hr; simp at hr
                | APP f' a'' => rfl
                | PTR p => rfl
                | BASE b => rfl
              · simp only at hr
                cases h2v : ha1.node v <;> rw [h2v] at hr <;> simp at hr
          · simp only at hr
            cases h1v : hf1.node v <;> rw [h1v] at hr <;> simp at hr

theorem run_add (d : Nat) : ∀ (a b : Nat) (h : Heap) (e : ExprPtr),
    run d (a + b) h e = (run d a h e).bind (fun s => run d b s.1 s.2) := by
  intro a
  induction a with
  | zero => intro b h e; simp [run]
  | succ a ih =>
    intro b h e
    rw [Nat.succ_add, run, run]
    cases hs : step d h e with
    | none => rfl
    | some rs =>
      obtain ⟨h1, _ | e1⟩ := rs
      · rfl
      · exact ih b h1 e1

/-- The state after `n` successful calls is determined, and one more successful call
starts from it. -/
theorem iter_last : ∀ (n : Nat) (h h1 h2 : Heap) (e e1 e2 : ExprPtr),
    Iter (n + 1) h e h2 e2 → Iter n h e h1 e1 → Returns h1 e1 h2 (some e2) := by
  intro n
  induction n with
  | zero =>
    intro h h1 h2 e e1 e2 hi2 hi1
    cases hi1
    cases hi2 with
    | succ hret hrest =>
      cases hrest
      exact hret
  | succ n ih =>
    intro h h1 h2 e e1 e2 hi2 hi1
    cases hi2 with
    | succ hret2 hrest2 =>
      cases hi1 with
      | succ hret1 hrest1 =>
        obtain ⟨d2, hd2⟩ := hret2
        obtain ⟨d1, hd1⟩ := hret1
        have := step_fuel_unique hd2 hd1
        simp only [Prod.mk.injEq, Option.some.injEq] at this
        obtain ⟨hh, he⟩ := this
        subst hh
        subst he
        exact ih _ _ _ _ _ _ hrest2 hrest1

/-- The loop of the self-application: on the application of node 3 to itself, where
node 3 is the abstraction on cell 2 whose body is that application, `step` fires the
redex and returns the same application again. -/
theorem omega_loop_step (h : Heap) (h7 : h.node 7 = .APP 3 3) (h3 : h.node 3 = .LAM 2 7) :
    step 2 h 7 = some (h.set_cell 2 3, some 7) :=
  step_app_beta (m := 1) h7 h3 (by rw [step, h3]) (by decide)

theorem omega_loop_run : ∀ (n : Nat) (h : Heap), h.node 7 = .APP 3 3 →
    h.node 3 = .LAM 2 7 → ∃ h', run 2 n h 7 = some (h', 7) := by
  intro n
  induction n with
  | zero => intro h _ _; exact ⟨h, rfl⟩
  | succ n ih =>
    intro h h7 h3
    rw [run, omega_loop_step h h7 h3]
    exact ih (h.set_cell 2 3) h7 h3

/-- What a call of `step` on `x` writes lies below `x`: a node it changes is an
application reached from `x` through function and argument slots, and a cell it writes
is the binder cell of the function of such an application, a redex of the starting
heap. -/
theorem step_spine_frame : ∀ (n : Nat) (h : Heap) (x : ExprPtr) (h' : Heap)
    (r : Option ExprPtr), step n h x = some (h', r) →
      (∀ y : ExprPtr, h'.node y = h.node y ∨
        ((∃ f a f' a', h.node y = .APP f a ∧ h'.node y = .APP f' a') ∧
          Relation.ReflTransGen (Slot h) x y)) ∧
      (h'.cell = h.cell ∨
        ∃ y f a c body, Relation.ReflTransGen (Slot h) x y ∧ h.node y = .APP f a ∧
          h.node f = .LAM c body ∧ h'.cell = (h.set_cell c a).cell ∧ r ≠ none) := by
  intro n
  induction n with
  | zero => intro h x h' r hr; simp [step] at hr
  | succ n ih =>
    intro h x h' r hr
    cases hn : h.node x with
    | LAM v b =>
      rw [step, hn] at hr; simp at hr
      rw [← hr.1]; exact ⟨fun y => Or.inl rfl, Or.inl rfl⟩
    | PTR p =>
      rw [step, hn] at hr; simp at hr
      rw [← hr.1]; exact ⟨fun y => Or.inl rfl, Or.inl rfl⟩
    | BASE b =>
      rw [step, hn] at hr; simp at hr
      rw [← hr.1]; exact ⟨fun y => Or.inl rfl, Or.inl rfl⟩
    | APP f a =>
      have sf : Slot h x f := ⟨f, a, hn, Or.inl rfl⟩
      have sa : Slot h x a := ⟨f, a, hn, Or.inr rfl⟩
      rw [step_app hn] at hr
      cases hf : step n h f with
      | none => rw [hf] at hr; simp at hr
      | some rf =>
        rw [hf] at hr
        obtain ⟨h1, _ | f2⟩ := rf
        · simp only at hr
          cases ha : step n h a with
          | none => rw [ha] at hr; simp at hr
          | some ra =>
            rw [ha] at hr
            obtain ⟨h2, _ | a2⟩ := ra
            · simp only at hr
              cases hfn : h.node f with
              | LAM v b =>
                rw [hfn] at hr
                simp at hr
                rw [← hr.1, ← hr.2]
                exact ⟨fun y => Or.inl rfl,
                  Or.inr ⟨x, f, a, v, b, Relation.ReflTransGen.refl, hn, hfn, rfl, by simp⟩⟩
              | APP f' a' =>
                rw [hfn] at hr; simp at hr
                rw [← hr.1]; exact ⟨fun y => Or.inl rfl, Or.inl rfl⟩
              | PTR p =>
                rw [hfn] at hr; simp at hr
                rw [← hr.1]; exact ⟨fun y => Or.inl rfl, Or.inl rfl⟩
              | BASE b =>
                rw [hfn] at hr; simp at hr
                rw [← hr.1]; exact ⟨fun y => Or.inl rfl, Or.inl rfl⟩
            · simp only at hr
              obtain ⟨ihn, ihc⟩ := ih h a h2 _ ha
              cases h2x : h2.node x with
              | APP f3 a3 =>
                rw [h2x] at hr
                simp at hr
                rw [← hr.1, ← hr.2]
                constructor
                · intro y
                  by_cases hy : y = x
                  · subst hy
                    exact Or.inr ⟨⟨f, a, f3, a2, hn, by simp⟩, Relation.ReflTransGen.refl⟩
                  · rw [set_node_node_ne _ _ hy]
                    rcases ihn y with h0 | ⟨h0, hreach⟩
                    · exact Or.inl h0
                    · exact Or.inr ⟨h0, Relation.ReflTransGen.head sa hreach⟩
                · rcases ihc with h0 | ⟨y, f', a', c, body, hreach, hy, hf'', hc, _⟩
                  · exact Or.inl h0
                  · exact Or.inr ⟨y, f', a', c, body, Relation.ReflTransGen.head sa hreach,
                      hy, hf'', hc, by simp⟩
              | LAM v b => rw [h2x] at hr; simp at hr
              | PTR p => rw [h2x] at hr; simp at hr
              | BASE b => rw [h2x] at hr; simp at hr
        · simp only at hr
          obtain ⟨ihn, ihc⟩ := ih h f h1 _ hf
          cases h1x : h1.node x with
          | APP f3 a3 =>
            rw [h1x] at hr
            simp at hr
            rw [← hr.1, ← hr.2]
            constructor
            · intro y
              by_cases hy : y = x
              · subst hy
                exact Or.inr ⟨⟨f, a, f2, a3, hn, by simp⟩, Relation.ReflTransGen.refl⟩
              · rw [set_node_node_ne _ _ hy]
                rcases ihn y with h0 | ⟨h0, hreach⟩
                · exact Or.inl h0
                · exact Or.inr ⟨h0, Relation.ReflTransGen.head sf hreach⟩
            · rcases ihc with h0 | ⟨y, f', a', c, body, hreach, hy, hf'', hc, _⟩
              · exact Or.inl h0
              · exact Or.inr ⟨y, f', a', c, body, Relation.ReflTransGen.head sf hreach,
                  hy, hf'', hc, by simp⟩
          | LAM v b => rw [h1x] at hr; simp at hr
          | PTR p => rw [h1x] at hr; simp at hr
          | BASE b => rw [h1x] at hr; simp at hr

/-- On a term whose function/argument structure is a tree of depth less than `n`, `step`
returns within recursion depth `n`. -/
theorem step_some_of_spine_finite : ∀ (n : Nat) (h : Heap) (t : ExprPtr),
    spine_finite n h t = true → ∃ h' r, step n h t = some (h', r) := by
  intro n
  induction n with
  | zero => intro h t hsf; simp [spine_finite] at hsf
  | succ n ih =>
    intro h t hsf
    rw [spine_finite] at hsf
    cases hn : h.node t with
    | LAM v b => exact ⟨h, none, by rw [step, hn]⟩
    | PTR p => exact ⟨h, h.cell p, by rw [step, hn]⟩
    | BASE b => exact ⟨h, none, by rw [step, hn]⟩
    | APP f a =>
      rw [hn] at hsf
      simp only [Bool.and_eq_true] at hsf
      obtain ⟨h1, r1, hf⟩ := ih h f hsf.1
      obtain ⟨h2, r2, ha⟩ := ih h a hsf.2
      rw [step_app hn, hf]
      cases r1 with
      | some f2 =>
        simp only
        rcases step_node_frame n h f h1 _ hf t with h0 | ⟨⟨f0, a0, f1, a1, _, h1t⟩, _⟩
        · rw [h0, hn]; exact ⟨_, _, rfl⟩
        · rw [h1t]; exact ⟨_, _, rfl⟩
      | none =>
        simp only [ha]
        cases r2 with
        | some a2 =>
          simp only
          rcases step_node_frame n h a h2 _ ha t with h0 | ⟨⟨f0, a0, f1, a1, _, h2t⟩, _⟩
          · rw [h0, hn]; exact ⟨_, _, rfl⟩
          · rw [h2t]; exact ⟨_, _, rfl⟩
        | none =>
          simp only
          cases h.node f with
          | LAM v b => exact ⟨_, _, rfl⟩
          | APP f' a' => exact ⟨_, _, rfl⟩
          | PTR p => exact ⟨_, _, rfl⟩
          | BASE b => exact ⟨_, _, rfl⟩

/-- When `step` on `v` returns `NULL`, the whole function/argument structure of `v` has
been visited within the recursion bound; if none of its nodes is a reference to `c`, the
check `spine_avoids` passes with that bound. -/
theorem spine_avoids_of_step_none (c : CellPtr) : ∀ (m : Nat) (h hv : Heap) (v : ExprPtr),
    step m h v = some (hv, none) →
    (∀ y p, Relation.ReflTransGen (Slot h) v y → h.node y = .PTR p → p ≠ c) →
      spine_avoids m h c v = true := by
  intro m
  induction m with
  | zero => intro h hv v hs; simp [step] at hs
  | succ m ih =>
    intro h hv v hs hav
    rw [spine_avoids]
    cases hn : h.node v with
    | LAM x b => rfl
    | BASE b => rfl
    | PTR p =>
      have := hav v p Relation.ReflTransGen.refl hn
      simp [this]
    | APP f a =>
      have sf : Slot h v f := ⟨f, a, hn, Or.inl rfl⟩
      have sa : Slot h v a := ⟨f, a, hn, Or.inr rfl⟩
      rw [step_app hn] at hs
      cases hf : step m h f with
      | none => rw [hf] at hs; simp at hs
      | some rf =>
        rw [hf] at hs
        obtain ⟨h1, _ | f2⟩ := rf
        · simp only at hs
          cases ha : step m h a with
          | none => rw [ha] at hs; simp at hs
          | some ra =>
            rw [ha] at hs
            obtain ⟨h2, _ | a2⟩ := ra
            · simp only [Bool.and_eq_true]
              exact ⟨ih h h1 f hf (fun y p hr => hav y p (Relation.ReflTransGen.head sf hr)),
                ih h h2 a ha (fun y p hr => hav y p (Relation.ReflTransGen.head sa hr))⟩
            · simp only at hs
              cases h2v : h2.node v <;> rw [h2v] at hs <;> simp at hs
        · simp only at hs
          cases h1v : h1.node v <;> rw [h1v] at hs <;> simp at hs

/-! ## Links and closed terms -/

theorem link_fun {h : Heap} {c : CellPtr} {u f a : ExprPtr} (hu : h.node u = .APP f a) :
    Link h c u f := Or.inl ⟨a, hu⟩

theorem link_arg {h : Heap} {c : CellPtr} {u f a : ExprPtr} (hu : h.node u = .APP f a) :
    Link h c u a := Or.inr (Or.inl ⟨f, hu⟩)

theorem link_body {h : Heap} {c var : CellPtr} {u b : ExprPtr}
    (hu : h.node u = .LAM var b) (hv : var ≠ c) : Link h c u b :=
  Or.inr (Or.inr (Or.inl ⟨var, hu, hv⟩))

theorem link_cell {h : Heap} {c p : CellPtr} {u v : ExprPtr} (hu : h.node u = .PTR p)
    (hp : h.cell p = some v) : Link h c u v :=
  Or.inr (Or.inr (Or.inr ⟨p, hu, hp⟩))

theorem link_congr {h h' : Heap} {c : CellPtr} {u v : ExprPtr}
    (hn : h'.node u = h.node u) (hc : h'.cell = h.cell) (hl : Link h' c u v) :
    Link h c u v := by
  unfold Link at hl ⊢
  rw [hn, hc] at hl
  exact hl

/-- The links out of an application whose slots have been rewritten. -/
theorem link_set_node_self {h : Heap} {c : CellPtr} {u f a v : ExprPtr}
    (hl : Link (h.set_node u (.APP f a)) c u v) : v = f ∨ v = a := by
  rcases hl with ⟨a', hu⟩ | ⟨f', hu⟩ | ⟨var, hu, _⟩ | ⟨p, hu, _⟩
  · rw [set_node_node_self] at hu
    exact Or.inl (expr.APP.inj hu).1.symm
  · rw [set_node_node_self] at hu
    exact Or.inr (expr.APP.inj hu).2.symm
  · rw [set_node_node_self] at hu; cases hu
  · rw [set_node_node_self] at hu; cases hu

/-- A successful call of `step` on `t` opens no new way out of `t`: for a cell `c` that
is empty afterwards, the returned term and the target of every link of the new heap that
is not a link of the old one are reached from `t` in the old heap without passing
through an abstraction on `c`. -/
theorem step_links : ∀ (n : Nat) (h : Heap) (t : ExprPtr) (h' : Heap) (t2 : ExprPtr),
    step n h t = some (h', some t2) → ∀ c : CellPtr, h'.cell c = none →
      Relation.ReflTransGen (Link h c) t t2 ∧
        ∀ u v, Link h' c u v → Link h c u v ∨ Relation.ReflTransGen (Link h c) t v := by
  intro n
  induction n with
  | zero => intro h t h' t2 hr; simp [step] at hr
  | succ n ih =>
    intro h t h' t2 hr c hc
    have hr0 := hr
    cases hn : h.node t with
    | LAM v b => rw [step, hn] at hr; simp at hr
    | BASE b => rw [step, hn] at hr; simp at hr
    | PTR p =>
      rw [step, hn] at hr
      simp only [Option.some.injEq, Prod.mk.injEq] at hr
      obtain ⟨hh, hp⟩ := hr
      subst hh
      exact ⟨Relation.ReflTransGen.single (link_cell hn hp), fun u v hl => Or.inl hl⟩
    | APP f a =>
      rw [step_app hn] at hr
      cases hf : step n h f with
      | none => rw [hf] at hr; simp at hr
      | some rf =>
        rw [hf] at hr
        obtain ⟨h1, _ | f2⟩ := rf
        · simp only at hr
          cases ha : step n h a with
          | none => rw [ha] at hr; simp at hr
          | some ra =>
            rw [ha] at hr
            obtain ⟨h2, _ | a2⟩ := ra
            · simp only at hr
              cases hfn : h.node f with
              | LAM var body =>
                rw [hfn] at hr
                simp only [Option.some.injEq, Prod.mk.injEq] at hr
                obtain ⟨hh, hb⟩ := hr
                subst hh
                subst hb
                have hvc : var ≠ c := by
                  intro hvc
                  rw [← hvc, set_cell_cell_self] at hc
                  cases hc
                refine ⟨Relation.ReflTransGen.head (link_fun hn)
                  (Relation.ReflTransGen.single (link_body hfn hvc)), ?_⟩
                intro u v hl
                rcases hl with hl | hl | hl | ⟨p, hu, hp⟩
                · exact Or.inl (Or.inl hl)
                · exact Or.inl (Or.inr (Or.inl hl))
                · exact Or.inl (Or.inr (Or.inr (Or.inl hl)))
                · by_cases hpv : p = var
                  · subst hpv
                    rw [set_cell_cell_self] at hp
                    have : v = a := (Option.some.inj hp).symm
                    subst this
                    exact Or.inr (Relation.ReflTransGen.single (link_arg hn))
                  · rw [set_cell_cell_ne _ _ hpv] at hp
                    exact Or.inl (link_cell hu hp)
              | APP f' a' => rw [hfn] at hr; simp at hr
              | PTR p => rw [hfn] at hr; simp at hr
              | BASE b => rw [hfn] at hr; simp at hr
            · simp only at hr
              have h2t : h2.node t = h.node t :=
                step_arg_keeps_self (n + 1) h t f a _ n n h1 h2 _ hr0 hn hf ha
              rw [h2t, hn] at hr
              simp only [Option.some.injEq, Prod.mk.injEq] at hr
              obtain ⟨hh, ht2⟩ := hr
              subst hh
              subst ht2
              obtain ⟨iha, ihb⟩ := ih h a h2 a2 ha c hc
              refine ⟨Relation.ReflTransGen.refl, ?_⟩
              intro u v hl
              by_cases hu : u = t
              · subst hu
                rcases link_set_node_self hl with hv | hv
                · subst hv; exact Or.inl (link_fun hn)
                · subst hv
                  exact Or.inr (Relation.ReflTransGen.head (link_arg hn) iha)
              · have hl2 : Link h2 c u v := link_congr (set_node_node_ne _ _ hu) rfl hl
                rcases ihb u v hl2 with h0 | h0
                · exact Or.inl h0
                · exact Or.inr (Relation.ReflTransGen.head (link_arg hn) h0)
        · simp only at hr
          have h1t : h1.node t = h.node t :=
            step_fun_keeps_self (n + 1) h t f a _ n h1 _ hr0 hn hf
          rw [h1t, hn] at hr
          simp only [Option.some.injEq, Prod.mk.injEq] at hr
          obtain ⟨hh, ht2⟩ := hr
          subst hh
          subst ht2
          obtain ⟨iha, ihb⟩ := ih h f h1 f2 hf c hc
          refine ⟨Relation.ReflTransGen.refl, ?_⟩
          intro u v hl
          by_cases hu : u = t
          · subst hu
            rcases link_set_node_self hl with hv | hv
            · subst hv
              exact Or.inr (Relation.ReflTransGen.head (link_fun hn) iha)
            · subst hv; exact Or.inl (link_arg hn)
          · have hl2 : Link h1 c u v := link_congr (set_node_node_ne _ _ hu) rfl hl
            rcases ihb u v hl2 with h0 | h0
            · exact Or.inl h0
            · exact Or.inr (Relation.ReflTransGen.head (link_fun hn) h0)

/-- A successful call of `step` keeps a closed term closed. -/
theorem closed_step {n : Nat} {h h' : Heap} {t t2 : ExprPtr} (hcl : Closed h t)
    (hs : step n h t = some (h', some t2)) : Closed h' t2 := by
  intro c r hc hr hreach
  have hc0 : h.cell c = none := by
    rcases step_cell_frame n h t h' _ hs with h0 | ⟨y, f, a, c', body, _, _, hcell, _⟩
    · rw [← h0]; exact hc
    · by_cases hcc : c = c'
      · subst hcc
        rw [hcell, set_cell_cell_self] at hc
        cases hc
      · rw [hcell, set_cell_cell_ne _ _ hcc] at hc
        exact hc
  have hr0 : h.node r = .PTR c := by
    rcases step_node_frame n h t h' _ hs r with h0 | ⟨⟨f, a, f', a', _, hr'⟩, _⟩
    · rw [← h0]; exact hr
    · rw [hr'] at hr; cases hr
  obtain ⟨hstart, hlinks⟩ := step_links n h t h' t2 hs c hc
  have hall : ∀ y, Relation.ReflTransGen (Link h' c) t2 y →
      Relation.ReflTransGen (Link h c) t y := by
    intro y hy
    induction hy with
    | refl => exact hstart
    | tail _ hl ih =>
      rcases hlinks _ _ hl with h0 | h0
      · exact Relation.ReflTransGen.tail ih h0
      · exact h0
  exact hcl c r hc0 hr0 (hall r hreach)

theorem closed_iter {n : Nat} {h h' : Heap} {t t' : ExprPtr} (hit : Iter n h t h' t')
    (hcl : Closed h t) : Closed h' t' := by
  induction hit with
  | zero h e => exact hcl
  | succ hret _ ih =>
    obtain ⟨d, hd⟩ := hret
    exact ih (closed_step hcl hd)

/-- The check `closed_term` is sound: below a term that passes it, a reference to `c`
reached without passing through an abstraction on `c` has `c` among the binders that
enclose the term. -/
theorem closed_term_sound : ∀ (n : Nat) (h : Heap) (bound : List CellPtr) (e : ExprPtr),
    closed_term n h bound e = true → ∀ (c : CellPtr) (r : ExprPtr),
      Relation.ReflTransGen (Link h c) e r → h.node r = .PTR c → c ∈ bound := by
  intro n
  induction n with
  | zero => intro h bound e hct; simp [closed_term] at hct
  | succ n ih =>
    intro h bound e hct c r hreach hr
    rw [closed_term] at hct
    rcases Relation.ReflTransGen.cases_head hreach with heq | ⟨v, hl, hrest⟩
    · subst heq
      rw [hr] at hct
      simp only [Bool.and_eq_true, decide_eq_true_eq] at hct
      exact hct.1
    · cases hn : h.node e with
      | APP f a =>
        rw [hn] at hct
        simp only [Bool.and_eq_true] at hct
        rcases hl with ⟨a', hu⟩ | ⟨f', hu⟩ | ⟨var, hu, _⟩ | ⟨p, hu, _⟩
        · rw [hn] at hu
          rw [(expr.APP.inj hu).1] at hct
          exact ih h bound v hct.1 c r hrest hr
        · rw [hn] at hu
          rw [(expr.APP.inj hu).2] at hct
          exact ih h bound v hct.2 c r hrest hr
        · rw [hn] at hu; cases hu
        · rw [hn] at hu; cases hu
      | LAM var body =>
        rw [hn] at hct
        simp only [Bool.and_eq_true] at hct
        rcases hl with ⟨a', hu⟩ | ⟨f', hu⟩ | ⟨var', hu, hvc⟩ | ⟨p, hu, _⟩
        · rw [hn] at hu; cases hu
        · rw [hn] at hu; cases hu
        · rw [hn] at hu
          obtain ⟨hv1, hv2⟩ := expr.LAM.inj hu
          rw [hv2] at hct
          have := ih h (var :: bound) v hct.2 c r hrest hr
          rcases List.mem_cons.mp this with h0 | h0
          · exact absurd (hv1 ▸ h0.symm) hvc
          · exact h0
        · rw [hn] at hu; cases hu
      | PTR p =>
        rw [hn] at hct
        simp only [Bool.and_eq_true, decide_eq_true_eq, Option.isNone_iff_eq_none] at hct
        rcases hl with ⟨a', hu⟩ | ⟨f', hu⟩ | ⟨var', hu, _⟩ | ⟨p', hu, hp⟩
        · rw [hn] at hu; cases hu
        · rw [hn] at hu; cases hu
        · rw [hn] at hu; cases hu
        · rw [hn] at hu
          rw [← expr.PTR.inj hu, hct.2] at hp
          cases hp
      | BASE b =>
        rcases hl with ⟨a', hu⟩ | ⟨f', hu⟩ | ⟨var', hu, _⟩ | ⟨p', hu, _⟩ <;>
          (rw [hn] at hu; cases hu)

theorem closed_of_closed_term {n : Nat} {h : Heap} {t : ExprPtr}
    (hct : closed_term n h [] t = true) : Closed h t := by
  intro c r _ hr hreach
  have := closed_term_sound n h [] t hct c r hreach hr
  simp at this

/-- The cells after a call of `step`: unchanged, or the one write of the redex that the
call fired. -/
theorem step_fires : ∀ (n : Nat) (h : Heap) (t : ExprPtr) (h' : Heap)
    (r : Option ExprPtr), step n h t = some (h', r) →
      h'.cell = h.cell ∨
        ∃ y f a c body, Fires h t y ∧ h.node y = .APP f a ∧ h.node f = .LAM c body ∧
          h'.cell = (h.set_cell c a).cell := by
  intro n
  induction n with
  | zero => intro h t h' r hr; simp [step] at hr
  | succ n ih =>
    intro h t h' r hr
    cases hn : h.node t with
    | LAM v b => rw [step, hn] at hr; simp at hr; left; rw [← hr.1]
    | PTR p => rw [step, hn] at hr; simp at hr; left; rw [← hr.1]
    | BASE b => rw [step, hn] at hr; simp at hr; left; rw [← hr.1]
    | APP f a =>
      rw [step_app hn] at hr
      cases hf : step n h f with
      | none => rw [hf] at hr; simp at hr
      | some rf =>
        rw [hf] at hr
        obtain ⟨h1, _ | f2⟩ := rf
        · simp only at hr
          have e1 : h1 = h := step_none_heap n h f h1 hf
          subst e1
          cases ha : step n h1 a with
          | none => rw [ha] at hr; simp at hr
          | some ra =>
            rw [ha] at hr
            obtain ⟨h2, _ | a2⟩ := ra
            · simp only at hr
              have e2 : h2 = h1 := step_none_heap n h1 a h2 ha
              subst e2
              cases hfn : h2.node f with
              | LAM v b =>
                rw [hfn] at hr
                simp at hr
                right
                exact ⟨t, f, a, v, b, Fires.here hn ⟨n, hf⟩ ⟨n, ha⟩ hfn, hn, hfn,
                  by rw [← hr.1]⟩
              | APP f' a' => rw [hfn] at hr; simp at hr; left; rw [← hr.1]
              | PTR p => rw [hfn] at hr; simp at hr; left; rw [← hr.1]
              | BASE b => rw [hfn] at hr; simp at hr; left; rw [← hr.1]
            · simp only at hr
              cases h2t : h2.node t with
              | APP f3 a3 =>
                rw [h2t] at hr
                simp at hr
                rcases ih h1 a h2 _ ha with h0 | ⟨y, f', a', c, body, hfire, hy, hf'', hc⟩
                · left; rw [← hr.1]; exact h0
                · right
                  exact ⟨y, f', a', c, body, Fires.arg hn ⟨n, hf⟩ hfire, hy, hf'',
                    by rw [← hr.1]; exact hc⟩
              | LAM v b => rw [h2t] at hr; simp at hr
              | PTR p => rw [h2t] at hr; simp at hr
              | BASE b => rw [h2t] at hr; simp at hr
        · simp only at hr
          cases h1t : h1.node t with
          | APP f3 a3 =>
            rw [h1t] at hr
            simp at hr
            rcases ih h f h1 _ hf with h0 | ⟨y, f', a', c, body, hfire, hy, hf'', hc⟩
            · left; rw [← hr.1]; exact h0
            · right
              exact ⟨y, f', a', c, body, Fires.fn hn hfire, hy, hf'',
                by rw [← hr.1]; exact hc⟩
          | LAM v b => rw [h1t] at hr; simp at hr
          | PTR p => rw [h1t] at hr; simp at hr
          | BASE b => rw [h1t] at hr; simp at hr

/-- In `self_apply_heap_5` the printing of `\x. x` at node 3 does not return: its body
refers to cell 2, which holds node 3. -/
theorem self_apply_print_none : ∀ d, expr2s d self_apply_heap_5 3 = none := by
  intro d
  refine expr2s_none_of_cycle (fun u => u = 3 ∨ u = 5) ?_ d 3 (Or.inl rfl)
  rintro u (hu | hu)
  · subst hu; exact ⟨5, Or.inr rfl, Or.inl ⟨2, rfl⟩⟩
  · subst hu; exact ⟨3, Or.inl rfl, Or.inr (Or.inr (Or.inr ⟨2, rfl, rfl⟩))⟩

/-- Neither does the printing of an application that has node 3 in its argument slot. -/
theorem self_apply_print_app_none {e f : ExprPtr} (he : self_apply_heap_5.node e = .APP f 3) :
    ∀ d, expr2s d self_apply_heap_5 e = none := by
  intro d
  cases d with
  | zero => rfl
  | succ d =>
    rw [expr2s, he]
    simp only
    cases expr2s d self_apply_heap_5 f with
    | none => rfl
    | some _ => exact self_apply_print_none d

/-! ## The rules of `step` -/

/-- C1. Beta-reduction by cell write, with sharing: on an application `e` of `f` to `a`
where `step f` and then `step a` return `NULL` and `f` is an abstraction with binder cell
`c` and body `body`, `step e` returns `body` and leaves a heap that differs from the
starting one only in cell `c`, which holds the pointer `a` itself (this is what
`step_app_lam` does); in that heap `step` on every reference to cell `c` returns that
same `a` and writes nothing. -/
theorem step_beta_fills_cell (h hf ha : Heap) (e f a body : ExprPtr) (c : CellPtr)
    (n m k : Nat) (he : h.node e = .APP f a) (hlam : h.node f = .LAM c body)
    (hfn : step n h f = some (hf, none)) (han : step m hf a = some (ha, none))
    (hk : max n m < k) :
    step k h e = some (h.set_cell c a, some body) ∧
      (h.set_cell c a, body) = step_app_lam h c body a ∧
      (h.set_cell c a).cell c = some a ∧
      ∀ (r : ExprPtr) (j : Nat), (h.set_cell c a).node r = .PTR c →
        step (j + 1) (h.set_cell c a) r = some (h.set_cell c a, some a) := by
  have e1 : hf = h := step_none_heap n h f hf hfn
  subst e1
  have e2 : ha = hf := step_none_heap m hf a ha han
  subst e2
  obtain ⟨k, rfl⟩ : ∃ k', k = k' + 1 := ⟨k - 1, by omega⟩
  have hf' := step_mono (m := k) (by omega) hfn
  have ha' := step_mono (m := k) (by omega) han
  refine ⟨?_, rfl, by simp, ?_⟩
  · rw [step_app he, hf']
    simp only [ha', hlam]
  · intro r j hr
    rw [step, hr]
    simp

theorem step_beta_fills_cell_witness :
    test1_heap.node 5 = .APP 1 3 ∧ test1_heap.node 1 = .LAM 1 2 ∧
      step 1 test1_heap 1 = some (test1_heap, none) ∧
      step 1 test1_heap 3 = some (test1_heap, none) ∧
      step 2 test1_heap 5 = some (test1_heap.set_cell 1 3, some 2) ∧
      (test1_heap.set_cell 1 3).cell 1 = some 3 ∧
      step 1 (test1_heap.set_cell 1 3) 2 = some (test1_heap.set_cell 1 3, some 3) :=
  have w := step_beta_fills_cell test1_heap test1_heap test1_heap 5 1 3 2 1 1 1 2
    rfl rfl rfl rfl (by decide)
  ⟨rfl, rfl, rfl, rfl, w.1, w.2.2.1, w.2.2.2 2 0 rfl⟩

/-- C2. Normal-order priority: on an application `e` of `f` to `a` on which `step f`
returns `f2` and leaves the heap `h1`, the node `e` still has `a` in its argument slot in
`h1`, and `step e` returns `e` itself and leaves exactly `h1` with the node `e` rewritten
to the application of `f2` to `a`: nothing that a step of `a` would do has happened,
whatever `a` is. -/
theorem step_function_first (h h1 : Heap) (e f a f2 : ExprPtr) (n k : Nat)
    (he : h.node e = .APP f a) (hfn : step n h f = some (h1, some f2)) (hk : n < k) :
    h1.node e = .APP f a ∧
      step k h e = some (h1.set_node e (.APP f2 a), some e) ∧
      (h1.set_node e (.APP f2 a)).node e = .APP f2 a ∧
      (h1.set_node e (.APP f2 a)).cell = h1.cell ∧
      ∀ y, y ≠ e → (h1.set_node e (.APP f2 a)).node y = h1.node y := by
  obtain ⟨k, rfl⟩ : ∃ k', k = k' + 1 := ⟨k - 1, by omega⟩
  have hf' := step_mono (m := k) (by omega) hfn
  have hstep := step_app (n := k) he
  rw [hf'] at hstep
  simp only at hstep
  have h1e : h1.node e = .APP f a := by
    rcases step_node_frame k h f h1 _ hf' e with h0 | ⟨⟨f0, a0, f1, a1, h0, h1e⟩, _⟩
    · rw [h0, he]
    · rw [h1e] at hstep
      rw [step_fun_keeps_self (k + 1) h e f a _ k h1 _ hstep he hf', he]
  rw [h1e] at hstep
  exact ⟨h1e, hstep, by simp, rfl, fun y hy => set_node_node_ne _ _ hy⟩

theorem step_function_first_witness :
    both_step_heap.node 1 = .APP 2 3 ∧
      step 1 both_step_heap 2 = some (both_step_heap, some 4) ∧
      step 1 both_step_heap 3 = some (both_step_heap, some 5) ∧
      step 2 both_step_heap 1 = some (both_step_heap.set_node 1 (.APP 4 3), some 1) ∧
      (both_step_heap.set_node 1 (.APP 4 3)).node 1 = .APP 4 3 ∧
      (both_step_heap.set_node 1 (.APP 4 3)).cell = both_step_heap.cell :=
  have w := step_function_first both_step_heap both_step_heap 1 2 3 4 1 2 rfl rfl
    (by decide)
  ⟨rfl, rfl, rfl, w.2.1, w.2.2.1, w.2.2.2.1⟩

/-- C3, as stated, fails: in `shared_fun_heap` the application at node 1 has the
abstraction at node 2 (binder cell 1) in its function slot, `step` on node 2 returns
`NULL`, `step` on the argument at node 3 returns node 4, and yet every call of `step` on
node 1 that returns leaves cell 1, empty before the call, holding node 5: the step of the
argument fired a redex on that same abstraction. -/
theorem step_argument_second_writes_binder :
    shared_fun_heap.node 1 = .APP 2 3 ∧ shared_fun_heap.node 2 = .LAM 1 4 ∧
      step 1 shared_fun_heap 2 = some (shared_fun_heap, none) ∧
      step 2 shared_fun_heap 3 = some (shared_fun_heap.set_cell 1 5, some 4) ∧
      shared_fun_heap.cell 1 = none ∧
      step 3 shared_fun_heap 1 =
        some ((shared_fun_heap.set_cell 1 5).set_node 1 (.APP 2 4), some 1) ∧
      ∀ (n : Nat) (h' : Heap) (r : Option ExprPtr),
        step n shared_fun_heap 1 = some (h', r) → h'.cell 1 = some 5 := by
  refine ⟨rfl, rfl, rfl, rfl, rfl, rfl, ?_⟩
  intro n h' r hr
  have h3 : step 3 shared_fun_heap 1 =
      some ((shared_fun_heap.set_cell 1 5).set_node 1 (.APP 2 4), some 1) := rfl
  have := step_fuel_unique hr h3
  rw [Prod.mk.injEq] at this
  rw [this.1]
  rfl

/-- C3, amended. On an application `e` of `f` to `a` on which `step f` returns `NULL` and
then `step a` returns `a2` and leaves the heap `h2`, the node `e` is still the
application of `f` to `a` in `h2`, and `step e` returns `e` itself and leaves exactly `h2`
with the node `e` rewritten to the application of `f` to `a2`.  This holds whatever `f`
is; the call adds no cell write to those of `step a`, so a binder cell `c` of `f` keeps
its contents unless the step of `a` fired a redex on an abstraction with that same binder
cell, which then holds that redex's argument. -/
theorem step_argument_second (h h1 h2 : Heap) (e f a a2 : ExprPtr) (n m k : Nat)
    (he : h.node e = .APP f a) (hfn : step n h f = some (h1, none))
    (han : step m h1 a = some (h2, some a2)) (hk : max n m < k) :
    h2.node e = .APP f a ∧
      step k h e = some (h2.set_node e (.APP f a2), some e) ∧
      (h2.set_node e (.APP f a2)).node e = .APP f a2 ∧
      (h2.set_node e (.APP f a2)).cell = h2.cell ∧
      (∀ y, y ≠ e → (h2.set_node e (.APP f a2)).node y = h2.node y) ∧
      ∀ c body, h.node f = .LAM c body →
        (h2.set_node e (.APP f a2)).cell c = h.cell c ∨
          ∃ y f' a' body', h.node y = .APP f' a' ∧ h.node f' = .LAM c body' ∧
            (h2.set_node e (.APP f a2)).cell c = some a' := by
  have e1 : h1 = h := step_none_heap n h f h1 hfn
  subst e1
  obtain ⟨h2e, hstep⟩ := step_app_arg_steps he hfn han hk
  refine ⟨h2e, hstep, by simp, rfl, fun y hy => set_node_node_ne _ _ hy, ?_⟩
  intro c body _
  rcases step_cell_frame m h1 a h2 _ han with h0 | ⟨y, f', a', c', body', hy, hf'', hc, _⟩
  · left; simp [h0]
  · by_cases hcc : c = c'
    · subst hcc
      right
      exact ⟨y, f', a', body', hy, hf'', by simp [hc]⟩
    · left
      simp [hc, set_cell_cell_ne _ _ hcc]

theorem step_argument_second_witness :
    arg_steps_heap.node 1 = .APP 2 3 ∧ arg_steps_heap.node 2 = .LAM 1 4 ∧
      step 1 arg_steps_heap 2 = some (arg_steps_heap, none) ∧
      step 1 arg_steps_heap 3 = some (arg_steps_heap, some 5) ∧
      step 2 arg_steps_heap 1 = some (arg_steps_heap.set_node 1 (.APP 2 5), some 1) ∧
      (arg_steps_heap.set_node 1 (.APP 2 5)).node 1 = .APP 2 5 ∧
      (arg_steps_heap.set_node 1 (.APP 2 5)).cell = arg_steps_heap.cell :=
  have w := step_argument_second arg_steps_heap arg_steps_heap arg_steps_heap 1 2 3 5 1 1 2
    rfl rfl rfl (by decide)
  ⟨rfl, rfl, rfl, rfl, w.2.1, w.2.2.1, w.2.2.2.1⟩

/-- C4, as stated, fails: in `arg_steps_heap` the application at node 1 has the
abstraction at node 2 (binder cell 1, body 4) in its function slot and the reference at
node 3 in its argument slot; `step` on node 3 returns node 5, and every call of `step` on
node 1 that returns gives back node 1 itself, not the body, with cell 1 still empty and
the argument slot rewritten to node 5. -/
theorem step_beta_waits_for_argument :
    arg_steps_heap.node 1 = .APP 2 3 ∧ arg_steps_heap.node 2 = .LAM 1 4 ∧
      step 1 arg_steps_heap 3 = some (arg_steps_heap, some 5) ∧
      step 2 arg_steps_heap 1 = some (arg_steps_heap.set_node 1 (.APP 2 5), some 1) ∧
      ∀ (n : Nat) (h' : Heap) (r : Option ExprPtr),
        step n arg_steps_heap 1 = some (h', r) →
          r = some 1 ∧ r ≠ some 4 ∧ h'.cell 1 = none ∧ h'.node 1 = .APP 2 5 := by
  refine ⟨rfl, rfl, rfl, rfl, ?_⟩
  intro n h' r hr
  have h2 : step 2 arg_steps_heap 1 =
      some (arg_steps_heap.set_node 1 (.APP 2 5), some 1) := rfl
  have := step_fuel_unique hr h2
  rw [Prod.mk.injEq] at this
  rw [this.1, this.2]
  exact ⟨rfl, by decide, rfl, rfl⟩

/-- C4, amended. On an application `e` of `f` to `a` where `f` is an abstraction with
binder cell `c` and body `body`, what `step e` does depends on the call of `step` on `a`.
If that call returns `NULL`, `step e` puts the pointer `a` as given into `c`, changes
nothing else and returns `body`.  If it returns `a2`, `step e` returns `e` with its
argument slot rewritten to `a2` and the redex does not fire on that call. -/
theorem step_beta_when_argument_stuck (h h2 : Heap) (e f a body : ExprPtr) (c : CellPtr)
    (m k : Nat) (r : Option ExprPtr) (he : h.node e = .APP f a)
    (hlam : h.node f = .LAM c body) (han : step m h a = some (h2, r)) (hk : m < k) :
    step k h e =
      match r with
      | none => some (h.set_cell c a, some body)
      | some a2 => some (h2.set_node e (.APP f a2), some e) := by
  obtain ⟨k, rfl⟩ : ∃ k', k = k' + 1 := ⟨k - 1, by omega⟩
  have hk1 : 1 ≤ k := by
    cases m with
    | zero => simp [step] at han
    | succ m => omega
  have hf1 : step 1 h f = some (h, none) := by rw [step, hlam]
  have hf' := step_mono hk1 hf1
  have ha' := step_mono (m := k) (by omega) han
  cases r with
  | none =>
    rw [step_app he, hf']
    simp only [ha', hlam]
  | some a2 =>
    exact (step_app_arg_steps he hf1 han (by omega)).2

theorem step_beta_when_argument_stuck_witness :
    test1_heap.node 5 = .APP 1 3 ∧ test1_heap.node 1 = .LAM 1 2 ∧
      step 1 test1_heap 3 = some (test1_heap, none) ∧
      step 2 test1_heap 5 = some (test1_heap.set_cell 1 3, some 2) :=
  ⟨rfl, rfl, rfl,
    step_beta_when_argument_stuck test1_heap test1_heap 5 1 3 2 1 1 2 none rfl rfl rfl
      (by decide)⟩

/-- C5. Value fixpoint: in every heap, if `is_value t` holds then `step t` returns `NULL`
and writes nothing, with any positive recursion bound. -/
theorem step_value_none (h : Heap) (t : ExprPtr) (n : Nat) (hv : is_value h t = true) :
    step (n + 1) h t = some (h, none) := by
  rw [step]
  unfold is_value at hv
  cases hn : h.node t with
  | LAM v b => rfl
  | BASE b => rfl
  | PTR p =>
    rw [hn] at hv
    simp only [Option.isNone_iff_eq_none] at hv
    simp [hv]
  | APP f a => rw [hn] at hv; simp at hv

theorem step_value_none_witness :
    is_value test1_heap 2 = true ∧ step 1 test1_heap 2 = some (test1_heap, none) :=
  ⟨rfl, step_value_none test1_heap 2 0 rfl⟩

/-- C6. One-step dereference: on a reference `t` whose cell `c` holds `u`, `step t`
returns `u` and writes nothing, whatever the node `u` is; when `u` is itself a reference
whose cell holds a different pointer `v`, the result is `u` and not `v`. -/
theorem step_deref_once (h : Heap) (t u : ExprPtr) (c : CellPtr) (n : Nat)
    (ht : h.node t = .PTR c) (hc : h.cell c = some u) :
    step (n + 1) h t = some (h, some u) ∧
      ∀ c2 v, h.node u = .PTR c2 → h.cell c2 = some v → v ≠ u →
        step (n + 1) h t ≠ some (h, some v) := by
  have hs : step (n + 1) h t = some (h, some u) := by rw [step, ht]; simp [hc]
  refine ⟨hs, ?_⟩
  intro c2 v _ _ hvu hv
  rw [hs] at hv
  simp at hv
  exact hvu hv.symm

theorem step_deref_once_witness :
    chain_heap.node 1 = .PTR 1 ∧ chain_heap.cell 1 = some 2 ∧
      chain_heap.node 2 = .PTR 2 ∧ chain_heap.cell 2 = some 3 ∧
      step 1 chain_heap 1 = some (chain_heap, some 2) ∧
      step 1 chain_heap 1 ≠ some (chain_heap, some 3) :=
  have w := step_deref_once chain_heap 1 2 1 0 rfl rfl
  ⟨rfl, rfl, rfl, rfl, w.1, w.2 2 3 rfl rfl (by decide)⟩

/-! ## The driver loop -/

/-- C7. `eval` is the iteration of `step` up to the first pointer on which `step` returns
`NULL`: whenever `eval` on `t` returns `r` and leaves the heap `h'`, there is an `n`,
less than the number of turns of the loop, such that `n` successive successful calls of
`step`, each on the result of the previous one and in the heap it left, lead from `t` to
`r` and from the starting heap to `h'`, and `step` on `r` in `h'` returns `NULL` and
writes nothing. -/
theorem eval_iterates_step (h h' : Heap) (t r : ExprPtr) (depth k : Nat)
    (hev : eval depth k h t = some (h', r)) :
    ∃ n, n < k ∧ Iter n h t h' r ∧ step depth h' r = some (h', none) := by
  obtain ⟨n, hn, hi⟩ := eval_to_iter depth k h t h' r hev
  exact ⟨n, hn, hi, eval_last_step depth k h t h' r hev⟩

theorem eval_iterates_step_witness :
    eval 3 3 test1_heap 5 = some (test1_heap.set_cell 1 3, 3) ∧
      ∃ n, n < 3 ∧ Iter n test1_heap 5 (test1_heap.set_cell 1 3) 3 ∧
        step 3 (test1_heap.set_cell 1 3) 3 = some (test1_heap.set_cell 1 3, none) :=
  ⟨rfl, eval_iterates_step test1_heap (test1_heap.set_cell 1 3) 5 3 3 3 rfl⟩

/-- C8. Idempotence of `eval` on its results: if `eval` on `t` returns `r` and leaves the
heap `h'`, then in `h'` the call of `step` on `r` returns `NULL`, and `eval` on `r`, with
the same recursion bound and any positive bound on the loop, returns `r` itself and
leaves `h'` unchanged, after that one unsuccessful call of `step`. -/
theorem eval_idempotent (h h' : Heap) (t r : ExprPtr) (depth k k' : Nat)
    (hev : eval depth k h t = some (h', r)) :
    step depth h' r = some (h', none) ∧ eval depth (k' + 1) h' r = some (h', r) := by
  have hlast := eval_last_step depth k h t h' r hev
  have hprint := eval_last_print depth k h t h' r hev
  exact ⟨hlast, eval_succ_none hprint hlast⟩

theorem eval_idempotent_witness :
    eval 3 3 test1_heap 5 = some (test1_heap.set_cell 1 3, 3) ∧
      step 3 (test1_heap.set_cell 1 3) 3 = some (test1_heap.set_cell 1 3, none) ∧
      eval 3 1 (test1_heap.set_cell 1 3) 3 = some (test1_heap.set_cell 1 3, 3) :=
  ⟨rfl, eval_idempotent test1_heap (test1_heap.set_cell 1 3) 5 3 3 3 0 rfl⟩

/-! ## Repetition and sharing -/

/-- C9, as stated, fails: in `repeat_heap` the first call of `step` on node 1 returns
node 1 itself (its function slot stepped, from the reference at node 2 to the abstraction
at node 4), and the second call of `step` on that same node 1, in the heap the first call
left, fires the redex and returns the body, node 5. -/
theorem step_repeated_differs :
    step 2 repeat_heap 1 = some (repeat_heap.set_node 1 (.APP 4 3), some 1) ∧
      step 2 (repeat_heap.set_node 1 (.APP 4 3)) 1 =
        some ((repeat_heap.set_node 1 (.APP 4 3)).set_cell 2 3, some 5) ∧
      ∀ (n m : Nat) (h1 h2 : Heap) (r1 r2 : Option ExprPtr),
        step n repeat_heap 1 = some (h1, r1) → step m h1 1 = some (h2, r2) →
          r1 = some 1 ∧ r2 = some 5 ∧ r2 ≠ r1 := by
  have a1 : step 2 repeat_heap 1 = some (repeat_heap.set_node 1 (.APP 4 3), some 1) := rfl
  have a2 : step 2 (repeat_heap.set_node 1 (.APP 4 3)) 1 =
      some ((repeat_heap.set_node 1 (.APP 4 3)).set_cell 2 3, some 5) := rfl
  refine ⟨a1, a2, ?_⟩
  intro n m h1 h2 r1 r2 hn hm
  have e1 := step_fuel_unique hn a1
  rw [Prod.mk.injEq] at e1
  obtain ⟨e1h, e1r⟩ := e1
  subst e1h
  have e2 := step_fuel_unique hm a2
  rw [Prod.mk.injEq] at e2
  rw [e1r, e2.2]
  exact ⟨rfl, rfl, by decide⟩

/-- C9, amended. `step` is a function of the pointer and of the heap it is called in: two
calls on `t` in the same heap return the same result and leave the same heap, whatever
their recursion bounds.  A call that returns `NULL` has written nothing, and after a call
that has written nothing every further call on `t` returns the same result again and
writes nothing.  (A call that has written may be followed by a different result.) -/
theorem step_repeatable_when_nothing_written (h h1 : Heap) (t : ExprPtr) (n : Nat)
    (r1 : Option ExprPtr) (hn : step n h t = some (h1, r1)) :
    (∀ (m : Nat) (h2 : Heap) (r2 : Option ExprPtr),
        step m h t = some (h2, r2) → h2 = h1 ∧ r2 = r1) ∧
      (r1 = none → h1 = h) ∧
      (h1 = h → ∀ m, n ≤ m → step m h1 t = some (h1, r1)) := by
  refine ⟨?_, ?_, ?_⟩
  · intro m h2 r2 hm
    have := step_fuel_unique hm hn
    rw [Prod.mk.injEq] at this
    exact this
  · intro hr
    subst hr
    exact step_none_heap n h t h1 hn
  · intro hh m hm
    subst hh
    exact step_mono hm hn

theorem step_repeatable_when_nothing_written_witness :
    step 1 chain_heap 1 = some (chain_heap, some 2) ∧
      step 4 chain_heap 1 = some (chain_heap, some 2) :=
  have w := step_repeatable_when_nothing_written chain_heap chain_heap 1 1 (some 2) rfl
  ⟨rfl, w.2.2 rfl 4 (by decide)⟩

/-- C10, as stated, fails.  `twice_heap` holds the closed term `(\f. (f A) (f K)) I`, all
cells empty.  After two successful calls of `step` the current term is node 4 with the
redex `I A` (node 6, function node 3 with binder cell 2, argument node 9) and cell 2
empty; the third call fires that redex and leaves cell 2 holding node 9.  Three more
calls later the redex `I K` has fired on the same abstraction: cell 2 holds node 11, and
`step` on the reference at node 5, which shares cell 2, returns node 11, not node 9.
From there `eval` runs on to its result, the constant at node 11. -/
theorem cell_overwritten_by_later_redex :
    closed_term 6 twice_heap [] 1 = true ∧
      ∃ h2 h3 h6 : Heap,
        Iter 2 twice_heap 1 h2 4 ∧
        h2.node 6 = .APP 3 9 ∧ h2.node 3 = .LAM 2 5 ∧ h2.cell 2 = none ∧
        Iter 1 h2 4 h3 4 ∧ h3.cell 2 = some 9 ∧
        Iter 3 h3 4 h6 4 ∧ h6.cell 2 = some 11 ∧
        h6.node 5 = .PTR 2 ∧ step 1 h6 5 = some (h6, some 11) ∧
        ∃ h9 : Heap, eval 5 10 h6 4 = some (h9, 11) := by
  refine ⟨by decide,
    (((twice_heap.set_cell 1 3).set_node 6 (.APP 3 9)).set_node 4 (.APP 6 7)),
    (((((twice_heap.set_cell 1 3).set_node 6 (.APP 3 9)).set_node 4 (.APP 6 7)).set_cell
      2 9).set_node 4 (.APP 5 7)),
    ((((((((twice_heap.set_cell 1 3).set_node 6 (.APP 3 9)).set_node 4 (.APP 6 7)).set_cell
      2 9).set_node 4 (.APP 5 7)).set_node 4 (.APP 9 7)).set_node 7 (.APP 3 11)).set_node 4
      (.APP 9 7)).set_cell 2 11 |>.set_node 4 (.APP 9 5),
    ?_, rfl, rfl, rfl, ?_, rfl, ?_, rfl, rfl, rfl, _, rfl⟩
  · exact run_to_iter 3 2 _ _ _ _ rfl
  · exact run_to_iter 3 1 _ _ _ _ rfl
  · exact run_to_iter 3 3 _ _ _ _ rfl

/-- C10, amended. A filled cell is never emptied, and it keeps its contents until a later
call fires a redex on an abstraction with that binder cell: if cell `c` holds `a` and `n`
successive successful calls of `step` follow, then `c` is still filled at the end, and
either it still holds that same `a`, or one of those calls, started in a heap `hi` on a
term `ei`, fired a redex of `hi` whose function is an abstraction with binder cell `c`,
wrote that redex's argument `a'` into `c`, and `c` holds that `a'` at the end. -/
theorem cell_persists_until_next_redex (n : Nat) (h h' : Heap) (e e' : ExprPtr)
    (c : CellPtr) (a : ExprPtr) (hit : Iter n h e h' e') (hc : h.cell c = some a) :
    (∃ a', h'.cell c = some a') ∧
      (h'.cell c = some a ∨
        ∃ (i : Nat) (hi hj : Heap) (ei ej y f a' body : ExprPtr),
          i < n ∧ Iter i h e hi ei ∧ Returns hi ei hj (some ej) ∧
            Iter (n - (i + 1)) hj ej h' e' ∧
            Fires hi ei y ∧ hi.node y = .APP f a' ∧ hi.node f = .LAM c body ∧
            hj.cell c = some a' ∧ h'.cell c = some a') := by
  have main : h'.cell c = some a ∨
      ∃ (i : Nat) (hi hj : Heap) (ei ej y f a' body : ExprPtr),
        i < n ∧ Iter i h e hi ei ∧ Returns hi ei hj (some ej) ∧
          Iter (n - (i + 1)) hj ej h' e' ∧
          Fires hi ei y ∧ hi.node y = .APP f a' ∧ hi.node f = .LAM c body ∧
          hj.cell c = some a' ∧ h'.cell c = some a' := by
    revert a
    induction hit with
    | zero h e => intro a hc; exact Or.inl hc
    | @succ n h h1 h2 e e1 e2 hret hit ih =>
      intro a hc
      obtain ⟨d, hd⟩ := hret
      have lift : ∀ {b : ExprPtr}, h1.cell c = some b →
          h2.cell c = some b ∨
            ∃ (i : Nat) (hi hj : Heap) (ei ej y f a' body : ExprPtr),
              i < n + 1 ∧ Iter i h e hi ei ∧ Returns hi ei hj (some ej) ∧
                Iter (n + 1 - (i + 1)) hj ej h2 e2 ∧
                Fires hi ei y ∧ hi.node y = .APP f a' ∧ hi.node f = .LAM c body ∧
                hj.cell c = some a' ∧ h2.cell c = some a' := by
        intro b hb
        rcases ih b hb with h0 |
          ⟨i, hi, hj, ei, ej, y, f, a', body, hlt, hiter, hr, hsuf, hfire, hy, hf, hw, hfin⟩
        · exact Or.inl h0
        · right
          refine ⟨i + 1, hi, hj, ei, ej, y, f, a', body, Nat.succ_lt_succ hlt,
            Iter.succ ⟨d, hd⟩ hiter, hr, ?_, hfire, hy, hf, hw, hfin⟩
          have hsub : n + 1 - (i + 1 + 1) = n - (i + 1) := by omega
          rw [hsub]
          exact hsuf
      rcases step_fires d h e h1 _ hd with h0 | ⟨y, f, a', c', body, hfire, hy, hf, hcell⟩
      · exact lift (by rw [h0]; exact hc)
      · by_cases hcc : c = c'
        · subst hcc
          have hw : h1.cell c = some a' := by rw [hcell]; simp
          rcases lift hw with h0 | h0
          · right
            refine ⟨0, h, h1, e, e1, y, f, a', body, Nat.succ_pos n, Iter.zero h e,
              ⟨d, hd⟩, ?_, hfire, hy, hf, hw, h0⟩
            simpa using hit
          · exact Or.inr h0
        · exact lift (by rw [hcell, set_cell_cell_ne _ _ hcc]; exact hc)
  refine ⟨?_, main⟩
  rcases main with h0 | ⟨_, _, _, _, _, _, _, a', _, _, _, _, _, _, _, _, _, hfin⟩
  · exact ⟨a, h0⟩
  · exact ⟨a', hfin⟩

theorem cell_persists_until_next_redex_witness :
    Iter 3 twice_heap_3 4 twice_heap_6 4 ∧
      twice_heap_3.cell 2 = some 9 ∧ twice_heap_6.cell 2 = some 11 ∧
      ((∃ a', twice_heap_6.cell 2 = some a') ∧
        (twice_heap_6.cell 2 = some 9 ∨
          ∃ (i : Nat) (hi hj : Heap) (ei ej y f a' body : ExprPtr),
            i < 3 ∧ Iter i twice_heap_3 4 hi ei ∧ Returns hi ei hj (some ej) ∧
              Iter (3 - (i + 1)) hj ej twice_heap_6 4 ∧
              Fires hi ei y ∧ hi.node y = .APP f a' ∧ hi.node f = .LAM 2 body ∧
              hj.cell 2 = some a' ∧ twice_heap_6.cell 2 = some a')) :=
  ⟨run_to_iter 3 3 _ _ _ _ rfl, rfl, rfl,
    cell_persists_until_next_redex 3 twice_heap_3 twice_heap_6 4 4 2 9
      (run_to_iter 3 3 _ _ _ _ rfl) rfl⟩

/-! ## The scenarios of the fixtures -/

/-- C14, as stated, fails, in two ways.  In `zero_ref_heap` the constant at node 2 is
applied, at node 1, to the reference at node 3, which steps to node 4; every call of
`step` on node 1 that returns gives back node 1, not `NULL`, with the argument slot
rewritten to node 4, and `eval` returns node 1 with that reduced argument.  And in
`self_apply_heap_5`, left by five successful calls of `step` on the closed term
`(\f. f f) (\x. x)`, node 13 is the constant at node 12 applied to node 3, whose cell
holds node 3 itself: `step` on node 3 and on node 13 returns `NULL`, but `eval` on
node 13 returns no result, whatever its bounds, because the printing of node 13 with
which it starts does not return. -/
theorem step_const_applied_steps_argument :
    (zero_ref_heap.node 1 = .APP 2 3 ∧ zero_ref_heap.node 2 = .BASE b0 ∧
      step 1 zero_ref_heap 3 = some (zero_ref_heap, some 4) ∧
      step 2 zero_ref_heap 1 = some (zero_ref_heap.set_node 1 (.APP 2 4), some 1) ∧
      eval 3 2 zero_ref_heap 1 = some (zero_ref_heap.set_node 1 (.APP 2 4), 1) ∧
      ∀ (n : Nat) (h' : Heap) (r : Option ExprPtr),
        step n zero_ref_heap 1 = some (h', r) → r ≠ none ∧ h'.node 1 = .APP 2 4) ∧
    (closed_term 4 self_apply_heap [] 1 = true ∧
      run 2 5 self_apply_heap 1 = some (self_apply_heap_5, 3) ∧
      self_apply_heap_5.node 13 = .APP 12 3 ∧ self_apply_heap_5.node 12 = .BASE b0 ∧
      self_apply_heap_5.node 3 = .LAM 2 5 ∧ self_apply_heap_5.node 5 = .PTR 2 ∧
      self_apply_heap_5.cell 2 = some 3 ∧
      step 1 self_apply_heap_5 3 = some (self_apply_heap_5, none) ∧
      step 2 self_apply_heap_5 13 = some (self_apply_heap_5, none) ∧
      (∀ d, expr2s d self_apply_heap_5 13 = none) ∧
      ∀ d k, eval d k self_apply_heap_5 13 = none) := by
  refine ⟨⟨rfl, rfl, rfl, rfl, rfl, ?_⟩,
    ⟨by decide, rfl, rfl, rfl, rfl, rfl, rfl, rfl, rfl, self_apply_print_app_none rfl,
      eval_none_of_print_none (self_apply_print_app_none rfl)⟩⟩
  intro n h' r hr
  have h2 : step 2 zero_ref_heap 1 =
      some (zero_ref_heap.set_node 1 (.APP 2 4), some 1) := rfl
  have := step_fuel_unique hr h2
  rw [Prod.mk.injEq] at this
  rw [this.1, this.2]
  exact ⟨by decide, rfl⟩

/-- C14, amended. On an application `e` of a constant `f` to `a`, what `step e` does
depends on the call of `step` on `a`.  If that call returns `NULL`, `step e` returns
`NULL` and writes nothing, and `eval e` returns `e` itself with the heap unchanged,
provided the printing of `e` with which `eval` starts returns.  If the call on `a`
returns `a2`, `step e` returns `e` with its argument slot rewritten to `a2`. -/
theorem step_const_applied (h h2 : Heap) (e f a : ExprPtr) (b : base) (m k j : Nat)
    (r : Option ExprPtr) (he : h.node e = .APP f a) (hb : h.node f = .BASE b)
    (han : step m h a = some (h2, r)) (hk : m < k) :
    (step k h e =
        match r with
        | none => some (h, none)
        | some a2 => some (h2.set_node e (.APP f a2), some e)) ∧
      (r = none → ∀ d, d ≤ k → expr2s d h e = some () →
        eval k (j + 1) h e = some (h, e)) := by
  have hm1 : 1 ≤ m := by
    cases m with
    | zero => simp [step] at han
    | succ m => omega
  have hf1 : step 1 h f = some (h, none) := by rw [step, hb]
  have hs : step k h e =
      match r with
      | none => some (h, none)
      | some a2 => some (h2.set_node e (.APP f a2), some e) := by
    cases r with
    | none =>
      exact step_app_stuck he (fun c body hc => by rw [hb] at hc; cases hc) hf1 han
        (by omega)
    | some a2 =>
      exact (step_app_arg_steps he hf1 han (by omega)).2
  refine ⟨hs, ?_⟩
  intro hr d hd hp
  subst hr
  exact eval_succ_none (expr2s_mono hd hp) hs

theorem step_const_applied_witness :
    zero_unit_heap.node 1 = .APP 2 3 ∧ zero_unit_heap.node 2 = .BASE b0 ∧
      step 1 zero_unit_heap 3 = some (zero_unit_heap, none) ∧
      expr2s 2 zero_unit_heap 1 = some () ∧
      step 2 zero_unit_heap 1 = some (zero_unit_heap, none) ∧
      eval 2 1 zero_unit_heap 1 = some (zero_unit_heap, 1) :=
  have w := step_const_applied zero_unit_heap zero_unit_heap 1 2 3 b0 1 2 0 none rfl rfl rfl
    (by decide)
  ⟨rfl, rfl, rfl, rfl, w.1, w.2 rfl 2 (by decide) rfl⟩

/-- C15. Divergence of the self-application: from `omega_heap`, the term
`(\x. x x) (\x. x x)`, every one of the successive calls of `step` returns a term, each
within recursion depth 2, so for every `n` there are `n` successive successful calls;
after six of them the nodes and cells are those of `omega_loop_heap`, where the current
term steps to itself; and `eval` returns no result, whatever its bounds. -/
theorem eval_omega_diverges :
    (∀ n, ∃ h' e', run 2 n omega_heap 1 = some (h', e')) ∧
      (∀ n, ∃ h' e', Iter n omega_heap 1 h' e') ∧
      (run 2 6 omega_heap 1).map
          (fun s => (s.2, (List.range 10).map s.1.node, (List.range 3).map s.1.cell)) =
        some (7, (List.range 10).map omega_loop_heap.node,
          (List.range 3).map omega_loop_heap.cell) ∧
      (∀ depth k, eval depth k omega_heap 1 = none) := by
  have h6 : (run 2 6 omega_heap 1).map (fun s => (s.1.node 7, s.1.node 3, s.2)) =
      some (.APP 3 3, .LAM 2 7, 7) := by decide
  have hrun : ∀ n, ∃ h' e', run 2 n omega_heap 1 = some (h', e') := by
    intro n
    have hlong : ∃ h', run 2 (6 + n) omega_heap 1 = some (h', 7) := by
      rw [run_add]
      cases hr : run 2 6 omega_heap 1 with
      | none => rw [hr] at h6; simp at h6
      | some s =>
        rw [hr] at h6
        simp only [Option.map_some', Option.some.injEq, Prod.mk.injEq] at h6
        obtain ⟨h', hh'⟩ := omega_loop_run n s.1 h6.1 h6.2.1
        refine ⟨h', ?_⟩
        simp only [Option.some_bind, h6.2.2]
        exact hh'
    obtain ⟨h', hh'⟩ := hlong
    rw [Nat.add_comm, run_add] at hh'
    cases hr : run 2 n omega_heap 1 with
    | none => rw [hr] at hh'; simp at hh'
    | some s => exact ⟨s.1, s.2, rfl⟩
  have hiter : ∀ n, ∃ h' e', Iter n omega_heap 1 h' e' := by
    intro n
    obtain ⟨h', e', hr⟩ := hrun n
    exact ⟨h', e', run_to_iter 2 n _ _ _ _ hr⟩
  refine ⟨hrun, hiter, by decide, ?_⟩
  intro depth k
  cases hev : eval depth k omega_heap 1 with
  | none => rfl
  | some s =>
    obtain ⟨h', r⟩ := s
    exfalso
    obtain ⟨n, _, hi⟩ := eval_to_iter depth k _ _ _ _ hev
    have hlast := eval_last_step depth k _ _ _ _ hev
    obtain ⟨h2, e2, hi2⟩ := hiter (n + 1)
    obtain ⟨d, hd⟩ := iter_last n _ _ _ _ _ _ hi2 hi
    have := step_fuel_unique hd hlast
    simp at this

/-! ## Normal forms, frame and termination of `step` -/

/-- C16. Characterisation of weak normal forms: in every heap, some call of `step` on
`t` returns `NULL` exactly when `t` is an abstraction, a constant, a reference whose cell
is empty, or an application of `f` to `a` where `step f` returns `NULL`, `step a` returns
`NULL` and `f` is not an abstraction. -/
theorem step_none_iff (h : Heap) (t : ExprPtr) :
    (∃ n h', step n h t = some (h', none)) ↔
      ((∃ c body, h.node t = .LAM c body) ∨ (∃ b, h.node t = .BASE b) ∨
        (∃ p, h.node t = .PTR p ∧ h.cell p = none) ∨
        ∃ f a, h.node t = .APP f a ∧ (∃ n h1, step n h f = some (h1, none)) ∧
          (∃ m h2, step m h a = some (h2, none)) ∧ ∀ c body, h.node f ≠ .LAM c body) := by
  constructor
  · rintro ⟨n, h', hs⟩
    cases n with
    | zero => simp [step] at hs
    | succ n =>
      cases hn : h.node t with
      | LAM c body => exact Or.inl ⟨c, body, rfl⟩
      | BASE b => exact Or.inr (Or.inl ⟨b, rfl⟩)
      | PTR p =>
        rw [step, hn] at hs
        simp only [Option.some.injEq, Prod.mk.injEq] at hs
        exact Or.inr (Or.inr (Or.inl ⟨p, rfl, hs.2⟩))
      | APP f a =>
        refine Or.inr (Or.inr (Or.inr ⟨f, a, rfl, ?_⟩))
        rw [step_app hn] at hs
        cases hf : step n h f with
        | none => rw [hf] at hs; simp at hs
        | some rf =>
          rw [hf] at hs
          obtain ⟨h1, _ | f2⟩ := rf
          · simp only at hs
            cases ha : step n h a with
            | none => rw [ha] at hs; simp at hs
            | some ra =>
              rw [ha] at hs
              obtain ⟨h2, _ | a2⟩ := ra
              · simp only at hs
                refine ⟨⟨n, h1, hf⟩, ⟨n, h2, ha⟩, ?_⟩
                intro c body hfn
                rw [hfn] at hs
                simp at hs
              · simp only at hs
                cases h2t : h2.node t <;> rw [h2t] at hs <;> simp at hs
          · simp only at hs
            cases h1t : h1.node t <;> rw [h1t] at hs <;> simp at hs
  · rintro (⟨c, body, hn⟩ | ⟨b, hn⟩ | ⟨p, hn, hc⟩ | ⟨f, a, hn, ⟨n, h1, hf⟩, ⟨m, h2, ha⟩, hnl⟩)
    · exact ⟨1, h, by rw [step, hn]⟩
    · exact ⟨1, h, by rw [step, hn]⟩
    · exact ⟨1, h, by rw [step, hn]; simp [hc]⟩
    · exact ⟨max n m + 1, h, step_app_stuck hn hnl hf ha (Nat.lt_succ_self _)⟩

theorem step_none_iff_witness :
    zero_unit_heap.node 1 = .APP 2 3 ∧ ∃ n h', step n zero_unit_heap 1 = some (h', none) :=
  ⟨rfl, (step_none_iff zero_unit_heap 1).mpr (Or.inr (Or.inr (Or.inr
    ⟨2, 3, rfl, ⟨1, zero_unit_heap, rfl⟩, ⟨1, zero_unit_heap, rfl⟩,
      fun _ _ hc => by cases hc⟩)))⟩

/-- C17. Frame of a step: a call of `step` on `t` that returns changes a node only if it
is an application reached from `t` through function and argument slots, and leaves it an
application; it leaves the cells as they were, or writes one cell, the binder cell of the
function of such an application, a redex, putting that redex's argument there, and then
it returns a term; on a reference it writes nothing.  No node changes its tag, no
abstraction, reference or constant node changes at all, and no filled cell becomes
empty. -/
theorem step_frame (h h' : Heap) (t : ExprPtr) (r : Option ExprPtr) (n : Nat)
    (hs : step n h t = some (h', r)) :
    (∀ y : ExprPtr, h'.node y = h.node y ∨
        ((∃ f a f' a', h.node y = .APP f a ∧ h'.node y = .APP f' a') ∧
          Relation.ReflTransGen (Slot h) t y)) ∧
      (h'.cell = h.cell ∨
        ∃ y f a c body, Relation.ReflTransGen (Slot h) t y ∧ h.node y = .APP f a ∧
          h.node f = .LAM c body ∧ h'.cell = (h.set_cell c a).cell ∧ r ≠ none) ∧
      (∀ p, h.node t = .PTR p → h' = h) ∧
      (∀ y, (h'.node y).tag = (h.node y).tag) ∧
      (∀ y, (h.node y).tag ≠ .APP → h'.node y = h.node y) ∧
      (∀ c, h.cell c ≠ none → h'.cell c ≠ none) := by
  obtain ⟨hnodes, hcells⟩ := step_spine_frame n h t h' r hs
  refine ⟨hnodes, hcells, ?_, ?_, ?_, ?_⟩
  · intro p hp
    cases n with
    | zero => simp [step] at hs
    | succ n =>
      rw [step, hp] at hs
      simp only [Option.some.injEq, Prod.mk.injEq] at hs
      exact hs.1.symm
  · intro y
    rcases hnodes y with h0 | ⟨⟨f, a, f', a', hy, hy'⟩, _⟩
    · rw [h0]
    · rw [hy, hy']; rfl
  · intro y hy
    rcases hnodes y with h0 | ⟨⟨f, a, f', a', hy0, _⟩, _⟩
    · exact h0
    · rw [hy0] at hy
      exact absurd rfl hy
  · intro c hc
    rcases hcells with h0 | ⟨y, f, a, c', body, _, _, _, hcell, _⟩
    · rw [h0]; exact hc
    · by_cases hcc : c = c'
      · subst hcc
        rw [hcell, set_cell_cell_self]
        simp
      · rw [hcell, set_cell_cell_ne _ _ hcc]
        exact hc

theorem step_frame_witness :
    step 3 shared_fun_heap 1 =
        some ((shared_fun_heap.set_cell 1 5).set_node 1 (.APP 2 4), some 1) ∧
      (((shared_fun_heap.set_cell 1 5).set_node 1 (.APP 2 4)).node 3 =
          shared_fun_heap.node 3 ∨
        ((∃ f a f' a', shared_fun_heap.node 3 = .APP f a ∧
            ((shared_fun_heap.set_cell 1 5).set_node 1 (.APP 2 4)).node 3 = .APP f' a') ∧
          Relation.ReflTransGen (Slot shared_fun_heap) 1 3)) ∧
      ((shared_fun_heap.set_cell 1 5).set_node 1 (.APP 2 4)).node 2 =
        shared_fun_heap.node 2 ∧
      (((shared_fun_heap.set_cell 1 5).set_node 1 (.APP 2 4)).node 1).tag =
        (shared_fun_heap.node 1).tag :=
  have w := step_frame shared_fun_heap ((shared_fun_heap.set_cell 1 5).set_node 1 (.APP 2 4))
    1 (some 1) 3 rfl
  ⟨rfl, w.1 3, w.2.2.2.2.1 2 (by decide), w.2.2.2.1 1⟩

/-- C18. No step, no mutation: in every heap, a call of `step` that returns `NULL` leaves
the heap as it was, nodes and cells alike. -/
theorem step_none_writes_nothing (h h' : Heap) (t : ExprPtr) (n : Nat)
    (hs : step n h t = some (h', none)) :
    h' = h ∧ h'.node = h.node ∧ h'.cell = h.cell := by
  have e := step_none_heap n h t h' hs
  subst e
  exact ⟨rfl, rfl, rfl⟩

theorem step_none_writes_nothing_witness :
    step 3 nested_stuck_heap 1 = some (nested_stuck_heap, none) ∧
      nested_stuck_heap = nested_stuck_heap ∧
      nested_stuck_heap.node = nested_stuck_heap.node ∧
      nested_stuck_heap.cell = nested_stuck_heap.cell :=
  ⟨rfl, step_none_writes_nothing nested_stuck_heap nested_stuck_heap 1 3 rfl⟩

/-- C19. Closedness is preserved by `step`: if `t` is closed in the starting heap (no
reference to an empty cell is reached from `t` without passing through an abstraction on
that cell) then the term returned by a successful call of `step` on `t` is closed in the
heap the call leaves, and so is the current term after any number of successive
successful calls, which is therefore never a reference to an empty cell. -/
theorem step_preserves_closed (h : Heap) (t : ExprPtr) (hcl : Closed h t) :
    (∀ (n : Nat) (h' : Heap) (t2 : ExprPtr),
        step n h t = some (h', some t2) → Closed h' t2) ∧
      ∀ (n : Nat) (h' : Heap) (t' : ExprPtr), Iter n h t h' t' →
        Closed h' t' ∧ ∀ p, h'.node t' = .PTR p → h'.cell p ≠ none := by
  refine ⟨fun n h' t2 hs => closed_step hcl hs, ?_⟩
  intro n h' t' hit
  have hcl' := closed_iter hit hcl
  refine ⟨hcl', ?_⟩
  intro p hp hc
  exact hcl' p t' hc hp Relation.ReflTransGen.refl

theorem step_preserves_closed_witness :
    closed_term 3 test1_heap [] 5 = true ∧ Closed test1_heap 5 ∧
      step 2 test1_heap 5 = some (test1_heap.set_cell 1 3, some 2) ∧
      Closed (test1_heap.set_cell 1 3) 2 :=
  ⟨by decide, closed_of_closed_term (n := 3) (by decide), rfl,
    (step_preserves_closed test1_heap 5 (closed_of_closed_term (n := 3) (by decide))).1
      2 _ 2 rfl⟩

/-- C20. Each call of `step` terminates: if the function/argument structure below `t`
is a tree of depth less than `n`, whatever the abstraction bodies and the cells hold,
then `step` on `t` returns, a term or `NULL`, within recursion depth `n`; and when the
call on a function slot has returned `NULL`, so that the argument slot is tried next, the
heap is still the starting one. -/
theorem step_terminates (h : Heap) (t : ExprPtr) (n : Nat)
    (hsf : spine_finite n h t = true) :
    (∃ h' r, step n h t = some (h', r)) ∧
      ∀ (f a : ExprPtr) (k : Nat) (h1 : Heap), h.node t = .APP f a →
        step k h f = some (h1, none) → h1 = h := by
  refine ⟨step_some_of_spine_finite n h t hsf, ?_⟩
  intro f a k h1 _ hf
  exact step_none_heap k h f h1 hf

theorem step_terminates_witness :
    spine_finite 2 omega_loop_heap 7 = true ∧
      omega_loop_heap.node 7 = .APP 3 3 ∧ omega_loop_heap.node 3 = .LAM 2 7 ∧
      omega_loop_heap.cell 2 = some 3 ∧
      ∃ h' r, step 2 omega_loop_heap 7 = some (h', r) :=
  ⟨rfl, rfl, rfl, rfl, (step_terminates omega_loop_heap 7 2 rfl).1⟩

end LambdaEval
